import Mathlib

/-!
# GooeyGlass: metaball shader and spring controller

A shallow embedding of `src/src/GooeyGlass.js`:

* the fragment shader (`smoothMin`, `sdSphere`, `map`, `calcNormal`, `main`), and
* the per-frame callback of `MetaballMesh` (`useFrame`), which integrates one
  damped spring per blob for the vertical position and one for the radius.

Numbers are elements of an arbitrary linearly ordered field `α` (the rationals
and the reals are instances), so every definition below is executable.  The
library functions the source calls but does not define (`Math.exp`, and the
GLSL built-ins `sqrt`, `sin`, `pow`) are taken as parameters, bundled in
`Builtins`.
-/

namespace GooeyGlass

/-- Library functions used by the source and defined outside of it:
`Math.exp` (JavaScript) and the GLSL built-ins `sqrt`, `sin`, `pow`. -/
structure Builtins (α : Type) where
  exp : α → α
  sqrt : α → α
  sin : α → α
  pow : α → α → α

/-- GLSL `vec2`. -/
structure Vec2 (α : Type) where
  x : α
  y : α

/-- GLSL `vec3` / `THREE.Vector3`. -/
structure Vec3 (α : Type) where
  x : α
  y : α
  z : α

/-- GLSL `vec4`. -/
structure Vec4 (α : Type) where
  x : α
  y : α
  z : α
  w : α

section Shader

variable {α : Type} [LinearOrderedField α]

/-- Componentwise `a + b` on `vec3`. -/
def Vec3.add (a b : Vec3 α) : Vec3 α := ⟨a.x + b.x, a.y + b.y, a.z + b.z⟩

/-- Componentwise `a - b` on `vec3`. -/
def Vec3.sub (a b : Vec3 α) : Vec3 α := ⟨a.x - b.x, a.y - b.y, a.z - b.z⟩

/-- Scaling `a * t` of a `vec3` by a float. -/
def Vec3.scale (a : Vec3 α) (t : α) : Vec3 α := ⟨a.x * t, a.y * t, a.z * t⟩

/-- Unary minus on `vec3`. -/
def Vec3.neg (a : Vec3 α) : Vec3 α := ⟨-a.x, -a.y, -a.z⟩

/-- GLSL `dot`. -/
def Vec3.dot (a b : Vec3 α) : α := a.x * b.x + a.y * b.y + a.z * b.z

/-- GLSL `length`. -/
def Vec3.length (B : Builtins α) (a : Vec3 α) : α := B.sqrt (Vec3.dot a a)

/-- GLSL `normalize`: `v / length(v)`. -/
def Vec3.normalize (B : Builtins α) (a : Vec3 α) : Vec3 α :=
  ⟨a.x / Vec3.length B a, a.y / Vec3.length B a, a.z / Vec3.length B a⟩

/-- GLSL `reflect(I, N) = I - 2 * dot(N, I) * N`. -/
def reflect (I N : Vec3 α) : Vec3 α :=
  Vec3.sub I (Vec3.scale N (2 * Vec3.dot N I))

/-- Shader uniforms (`uBackground` is declared but never bound nor sampled). -/
structure Uniforms (α : Type) where
  uResolution : Vec2 α
  uTime : α
  uBalls : Fin 4 → Vec3 α
  uRadii : Fin 4 → α

/-- `const float EPS = 0.001;` -/
def EPS : α := 0.001

/-- `const int MAX_STEPS = 48;` -/
def MAX_STEPS : Nat := 48

/-- `const float MAX_DIST = 10.0;` -/
def MAX_DIST : α := 10.0

/-- Shader function `smoothMin`. -/
def smoothMin (d1 d2 k : α) : α :=
  let h := max (k - |d1 - d2|) 0 / k
  min d1 d2 - h * h * k * 0.25

/-- Shader function `sdSphere`. -/
def sdSphere (B : Builtins α) (p center : Vec3 α) (radius : α) : α :=
  Vec3.length B (Vec3.sub p center) - radius

/-- One iteration of the loop of `map`: blob `i` is skipped (`continue`) when
its radius is below `0.001`, otherwise its sphere is blended into `d`. -/
def mapStep (B : Builtins α) (U : Uniforms α) (p : Vec3 α) (d : α) (i : Fin 4) : α :=
  if U.uRadii i < 0.001 then d
  else
    let sphere := sdSphere B p (U.uBalls i) (U.uRadii i)
    smoothMin d sphere 0.25

/-- Shader function `map`: the scene distance, the loop `for i in 0..3`
starting from `d = MAX_DIST`. -/
def map (B : Builtins α) (U : Uniforms α) (p : Vec3 α) : α :=
  (List.finRange 4).foldl (mapStep B U p) MAX_DIST

/-- Shader function `calcNormal`: central differences of `map` with offset
`e = vec2(EPS, 0.0)` along the three axes, normalised. -/
def calcNormal (B : Builtins α) (U : Uniforms α) (p : Vec3 α) : Vec3 α :=
  let exyy : Vec3 α := ⟨EPS, 0.0, 0.0⟩
  let eyxy : Vec3 α := ⟨0.0, EPS, 0.0⟩
  let eyyx : Vec3 α := ⟨0.0, 0.0, EPS⟩
  Vec3.normalize B
    ⟨map B U (Vec3.add p exyy) - map B U (Vec3.sub p exyy),
     map B U (Vec3.add p eyxy) - map B U (Vec3.sub p eyxy),
     map B U (Vec3.add p eyyx) - map B U (Vec3.sub p eyyx)⟩

/-- Result of the raymarch loop of `main`: the variables `hit`, `totalDist`
and `pos` when the loop is left, and a ghost counter `evals` of the number of
calls of `map` the loop made. -/
structure March (α : Type) where
  hit : Bool
  totalDist : α
  pos : Vec3 α
  evals : Nat

/-- The raymarch loop of `main`, `for (int i = 0; i < MAX_STEPS; i++)`, with the
number of remaining iterations as first argument.  Each iteration evaluates
`map(pos)` once; `dist < EPS` sets `hit` and breaks, `totalDist > MAX_DIST`
breaks, otherwise the ray advances by `dist`. -/
def marchLoop (B : Builtins α) (U : Uniforms α) (rayOrigin rayDir : Vec3 α) :
    Nat → α → Vec3 α → Nat → March α
  | 0, totalDist, pos, evals => ⟨false, totalDist, pos, evals⟩
  | n + 1, totalDist, pos, evals =>
    let dist := map B U pos
    if dist < EPS then ⟨true, totalDist, pos, evals + 1⟩
    else if totalDist > MAX_DIST then ⟨false, totalDist, pos, evals + 1⟩
    else
      marchLoop B U rayOrigin rayDir n (totalDist + dist)
        (Vec3.add rayOrigin (Vec3.scale rayDir (totalDist + dist))) (evals + 1)

/-- The ray origin `vec3(uv.x, uv.y, 2.0)` of `main`, where
`uv = (gl_FragCoord.xy - uResolution * 0.5) / min(uResolution.x, uResolution.y)`. -/
def rayOriginOf (U : Uniforms α) (fragCoord : Vec2 α) : Vec3 α :=
  let m := min U.uResolution.x U.uResolution.y
  ⟨(fragCoord.x - U.uResolution.x * 0.5) / m, (fragCoord.y - U.uResolution.y * 0.5) / m, 2.0⟩

/-- The ray direction `vec3(0.0, 0.0, -1.0)` of `main`. -/
def rayDir : Vec3 α := ⟨0.0, 0.0, -1.0⟩

/-- The raymarch of `main` for the pixel `fragCoord`: the loop started with
`totalDist = 0.0`, `pos = rayOrigin`, `hit = false`. -/
def raymarch (B : Builtins α) (U : Uniforms α) (fragCoord : Vec2 α) : March α :=
  marchLoop B U (rayOriginOf U fragCoord) rayDir MAX_STEPS 0.0 (rayOriginOf U fragCoord) 0

/-- The `if (hit)` branch of `main`: the colour written to `gl_FragColor` for a
hit at `pos`.  The source also computes `refractDir`, `refractOffset`, `uvR`,
`uvG`, `uvB` and `screenUv`, which no output depends on; they are left out. -/
def shadeHit (B : Builtins α) (U : Uniforms α) (pos : Vec3 α) : Vec4 α :=
  let normal := calcNormal B U pos
  let NdotV := |Vec3.dot normal (Vec3.neg rayDir)|
  let fresnel := B.pow (1.0 - NdotV) 3.0
  let reflectDir := reflect rayDir normal
  let refractedBg : Vec3 α := ⟨0.95, 0.95, 0.98⟩
  let glassColor := refractedBg
  let edgeFactor := B.pow (1.0 - NdotV) 5.0
  let edgeColor : Vec3 α :=
    ⟨0.5 + 0.5 * B.sin (edgeFactor * 6.28 + 0.0),
     0.5 + 0.5 * B.sin (edgeFactor * 6.28 + 2.09),
     0.5 + 0.5 * B.sin (edgeFactor * 6.28 + 4.18)⟩
  let glassColor := Vec3.add glassColor (Vec3.scale (Vec3.scale edgeColor edgeFactor) 0.08)
  let lightDir1 := Vec3.normalize B ⟨1.0, 1.0, 1.0⟩
  let lightDir2 := Vec3.normalize B ⟨-0.5, 0.8, 0.5⟩
  let spec1 := B.pow (max 0.0 (Vec3.dot reflectDir lightDir1)) 80.0
  let spec2 := B.pow (max 0.0 (Vec3.dot reflectDir lightDir2)) 60.0
  let one : Vec3 α := ⟨1.0, 1.0, 1.0⟩
  let glassColor := Vec3.add glassColor (Vec3.scale (Vec3.scale one spec1) 0.4)
  let glassColor := Vec3.add glassColor (Vec3.scale (Vec3.scale one spec2) 0.2)
  let rim := B.pow (1.0 - NdotV) 3.0
  let glassColor := Vec3.add glassColor (Vec3.scale (Vec3.scale one rim) 0.1)
  let alpha := 0.15 + fresnel * 0.3 + rim * 0.1
  ⟨glassColor.x, glassColor.y, glassColor.z, alpha⟩

/-- Fragment shader `main`: the value written to `gl_FragColor` for the pixel
`gl_FragCoord.xy = fragCoord`. -/
def main (B : Builtins α) (U : Uniforms α) (fragCoord : Vec2 α) : Vec4 α :=
  let m := raymarch B U fragCoord
  if m.hit then shadeHit B U m.pos
  else ⟨0.0, 0.0, 0.0, 0.0⟩

end Shader

section Controller

variable {α : Type} [LinearOrderedField α]

/-- The object held by `animRef`.  The fields `velY` and `velR` do not exist
until the first frame creates them, hence `Option`. -/
structure Anim (α : Type) where
  radii : Fin 4 → α
  startTime : α
  wasActive : Bool
  velY : Option (Fin 4 → α)
  velR : Option (Fin 4 → α)

/-- The mutable data the frame callback works on: `animRef.current` and the
uniforms of the mesh material. -/
structure State (α : Type) where
  anim : Anim α
  u : Uniforms α

/-- The state created when `MetaballMesh` mounts: the initial value of
`animRef` and the memoised `uniforms`. -/
def mounted : State α :=
  { anim :=
      { radii := ![0.28, 0, 0, 0]
        startTime := 0
        wasActive := false
        velY := none
        velR := none }
    u :=
      { uResolution := ⟨200, 600⟩
        uTime := 0
        uBalls := ![⟨0, 0.4, 0⟩, ⟨0, 0.4, 0⟩, ⟨0, 0.4, 0⟩, ⟨0, 0.4, 0⟩]
        uRadii := ![0.38, 0, 0, 0] } }

/-- `const baseX = 0.95;` -/
def baseX : α := 0.95

/-- `const baseY = 2.96;` -/
def baseY : α := 2.96

/-- `const spacing = 0.62;` -/
def spacing : α := 0.62

/-- `const staggerDelay = 0.2;` -/
def staggerDelay : α := 0.2

/-- `const childDelays = [0, staggerDelay, staggerDelay * 2, staggerDelay * 3];` -/
def childDelays : Fin 4 → α := ![0, staggerDelay, staggerDelay * 2, staggerDelay * 3]

/-- `const openPositions = [baseY, baseY - spacing * 2.6, ...];` -/
def openPositions : Fin 4 → α :=
  ![baseY, baseY - spacing * 2.6, baseY - spacing * 3.9, baseY - spacing * 5.2]

/-- `const closedY = baseY;` -/
def closedY : α := baseY

/-- `const openRadii = [0.38, 0.30, 0.30, 0.30];` -/
def openRadii : Fin 4 → α := ![0.38, 0.30, 0.30, 0.30]

/-- `const closedRadii = [0.28, 0, 0, 0];` -/
def closedRadii : Fin 4 → α := ![0.28, 0, 0, 0]

/-- The array literal `[0, 0, 0, 0]`. -/
def zeros : Fin 4 → α := ![0, 0, 0, 0]

/-- First part of the frame callback: `u.uTime.value = state.clock.elapsedTime`
and the block `if (active !== anim.wasActive) { ... }`, which records the start
time and the flag and resets both velocity arrays. -/
def detectTransition (s : State α) (active : Bool) (elapsedTime : α) : State α :=
  let s1 : State α := { s with u := { s.u with uTime := elapsedTime } }
  if active != s1.anim.wasActive then
    { s1 with
      anim :=
        { s1.anim with
          startTime := elapsedTime
          wasActive := active
          velY := some zeros
          velR := some zeros } }
  else s1

/-- The two statements `if (!anim.velY) anim.velY = [0, 0, 0, 0];` and
`if (!anim.velR) anim.velR = [0, 0, 0, 0];`. -/
def initVelocities (s : State α) : State α :=
  { s with
    anim :=
      { s.anim with
        velY := match s.anim.velY with
          | none => some zeros
          | some v => some v
        velR := match s.anim.velR with
          | none => some zeros
          | some v => some v } }

/-- Body of the loop `for (let i = 0; i < 4; i++)` of the frame callback, for
blob `i`.  Both velocity arrays exist when the loop runs (`initVelocities`). -/
def blobStep (B : Builtins α) (active : Bool) (elapsed delta : α) (s : State α) (i : Fin 4) :
    State α :=
  let ball := s.u.uBalls i
  let velY := s.anim.velY.getD zeros
  let velR := s.anim.velR.getD zeros
  let hasStarted : Bool := decide (elapsed ≥ childDelays i)
  let finalY := if active then openPositions i else closedY
  let finalR := if active then openRadii i else closedRadii i
  let targetY := if hasStarted then finalY else ball.y
  let targetR := if hasStarted then finalR else s.anim.radii i
  let distY := |finalY - ball.y|
  let progress := if active then 1 - min (distY / (spacing * 2)) 1 else min (distY / (spacing * 2)) 1
  let stiffness := if active then 25 + progress * 60 else 40 + progress * 60
  let damping := if active then 6 + progress * 6 else 6 + (1 - progress) * 6
  let forceY := (targetY - ball.y) * stiffness
  let vy := (velY i + forceY * delta) * B.exp (-damping * delta)
  let y := ball.y + vy * delta
  let forceR := (targetR - s.anim.radii i) * 60
  let vr := (velR i + forceR * delta) * B.exp (-10 * delta)
  let r := s.anim.radii i + vr * delta
  { anim :=
      { s.anim with
        radii := Function.update s.anim.radii i r
        velY := some (Function.update velY i vy)
        velR := some (Function.update velR i vr) }
    u :=
      { s.u with
        uBalls := Function.update s.u.uBalls i ⟨baseX, y, ball.z⟩
        uRadii := Function.update s.u.uRadii i (max 0 r) } }

/-- The frame callback after its guard, the spec's
`update(state, active, elapsedClockTime, frameDeltaTime)`: transition
detection, `elapsed = elapsedTime - anim.startTime`, creation of the velocity
arrays, then the loop over the four blobs. -/
def update (B : Builtins α) (s : State α) (active : Bool) (elapsedTime delta : α) : State α :=
  let s1 := detectTransition s active elapsedTime
  let elapsed := elapsedTime - s1.anim.startTime
  (List.finRange 4).foldl (blobStep B active elapsed delta) (initVelocities s1)

/-- What one invocation of the frame callback receives: the `active` prop, the
clock (`state.clock.elapsedTime`), the frame delta, and whether
`meshRef.current` is set. -/
structure Frame (α : Type) where
  active : Bool
  elapsedTime : α
  delta : α
  meshReady : Bool

/-- The callback passed to `useFrame`: `if (!meshRef.current) return;` followed
by the update. -/
def useFrame (B : Builtins α) (s : State α) (f : Frame α) : State α :=
  if !f.meshReady then s else update B s f.active f.elapsedTime f.delta

/-- A sequence of invocations of the frame callback, oldest first. -/
def runFrames (B : Builtins α) (s : State α) (fs : List (Frame α)) : State α :=
  fs.foldl (useFrame B) s

/-- Everything the state holds about one blob: its position, the radius,
both velocities (read as `0` while the velocity arrays do not exist yet) and the
radius uniform. -/
structure BlobView (α : Type) where
  x : α
  y : α
  z : α
  r : α
  vy : α
  vr : α
  ur : α

/-- The data of blob `i` in a state. -/
def State.blob (s : State α) (i : Fin 4) : BlobView α :=
  { x := (s.u.uBalls i).x
    y := (s.u.uBalls i).y
    z := (s.u.uBalls i).z
    r := s.anim.radii i
    vy := s.anim.velY.getD zeros i
    vr := s.anim.velR.getD zeros i
    ur := s.u.uRadii i }

/-- The `progress` ratio of the loop body, as a function of `active` and
`distY`. -/
def progressOf (active : Bool) (distY : α) : α :=
  if active then 1 - min (distY / (spacing * 2)) 1 else min (distY / (spacing * 2)) 1

/-- The `stiffness` of the loop body, as a function of `active` and `distY`. -/
def stiffnessOf (active : Bool) (distY : α) : α :=
  if active then 25 + progressOf active distY * 60 else 40 + progressOf active distY * 60

/-- The `damping` of the loop body, as a function of `active` and `distY`. -/
def dampingOf (active : Bool) (distY : α) : α :=
  if active then 6 + progressOf active distY * 6 else 6 + (1 - progressOf active distY) * 6

/-- The loop body of the frame callback written as a function on the data of
the one blob it touches (`blobStep_blob` relates it to `blobStep`). -/
def springStep (B : Builtins α) (active : Bool) (elapsed delta : α) (i : Fin 4)
    (b : BlobView α) : BlobView α :=
  let hasStarted : Bool := decide (elapsed ≥ childDelays i)
  let finalY := if active then openPositions i else closedY
  let finalR := if active then openRadii i else closedRadii i
  let targetY := if hasStarted then finalY else b.y
  let targetR := if hasStarted then finalR else b.r
  let distY := |finalY - b.y|
  let forceY := (targetY - b.y) * stiffnessOf active distY
  let vy := (b.vy + forceY * delta) * B.exp (-dampingOf active distY * delta)
  let y := b.y + vy * delta
  let forceR := (targetR - b.r) * 60
  let vr := (b.vr + forceR * delta) * B.exp (-10 * delta)
  let r := b.r + vr * delta
  { x := baseX, y := y, z := b.z, r := r, vy := vy, vr := vr, ur := max 0 r }

/-- The frames of the scenario "the update is called repeatedly with a fixed
time step": `n` calls with the same `active` flag and delta `dt`, the mesh
present, the clock starting at `t0` and advancing by `dt` each call. -/
def fixedStepFrames (active : Bool) (t0 dt : α) (n : Nat) : List (Frame α) :=
  (List.range n).map (fun j => ⟨active, t0 + (j : α) * dt, dt, true⟩)

end Controller

section Theorems

variable {α : Type} [LinearOrderedField α]

/-- The blend term subtracted by `smoothMin` is non-negative when `k > 0`. -/
theorem smoothMin_blend_nonneg (d1 d2 k : α) (hk : 0 < k) :
    0 ≤ (max (k - |d1 - d2|) 0 / k) * (max (k - |d1 - d2|) 0 / k) * k * 0.25 := by
  have h1 : (0 : α) ≤ max (k - |d1 - d2|) 0 / k :=
    div_nonneg (le_max_right _ _) hk.le
  have h2 : (0 : α) ≤ 0.25 := by norm_num
  exact mul_nonneg (mul_nonneg (mul_nonneg h1 h1) hk.le) h2

/-- C1 (SDF union monotonicity): for all `d1`, `d2` and every `k > 0`,
`smoothMin d1 d2 k` is the stated closed form, it is at most `min d1 d2`, and
in particular `smoothMin d d k ≤ d` for every `d`. -/
theorem smoothMin_le_min (d1 d2 k : α) (hk : 0 < k) :
    smoothMin d1 d2 k = min d1 d2 - (max (k - |d1 - d2|) 0 / k) ^ 2 * k / 4 ∧
    smoothMin d1 d2 k ≤ min d1 d2 ∧
    ∀ d : α, smoothMin d d k ≤ d := by
  refine ⟨?_, ?_, ?_⟩
  · simp only [smoothMin]
    norm_num
    ring
  · have h := smoothMin_blend_nonneg d1 d2 k hk
    simp only [smoothMin]
    linarith
  · intro d
    have h := smoothMin_blend_nonneg d d k hk
    simp only [smoothMin, min_self] at h ⊢
    linarith

/-- Witness for C1 at `d1 = 1`, `d2 = 2`, `k = 1/4` over the rationals. -/
theorem smoothMin_le_min_witness :
    (0 : ℚ) < 1 / 4 ∧
    (smoothMin (1 : ℚ) 2 (1 / 4) = min 1 2 - (max (1 / 4 - |(1 : ℚ) - 2|) 0 / (1 / 4)) ^ 2 * (1 / 4) / 4 ∧
    smoothMin (1 : ℚ) 2 (1 / 4) ≤ min 1 2 ∧
    ∀ d : ℚ, smoothMin d d (1 / 4) ≤ d) :=
  ⟨by norm_num, smoothMin_le_min 1 2 (1 / 4) (by norm_num)⟩

/-- With every radius below `0.001` each iteration of `map` takes the
`continue` branch. -/
theorem map_of_degenerate (B : Builtins α) (U : Uniforms α) (h : ∀ i, U.uRadii i < 0.001)
    (p : Vec3 α) : map B U p = MAX_DIST := by
  have key : ∀ (l : List (Fin 4)) (d : α), l.foldl (mapStep B U p) d = d := by
    intro l
    induction l with
    | nil => intro d; rfl
    | cons a l ih =>
      intro d
      rw [List.foldl_cons, ih]
      simp [mapStep, h a]
  exact key _ _

/-- Invariant of the raymarch loop: it evaluates `map` at most once per
remaining iteration, keeps `pos = rayOrigin + rayDir * totalDist`, and leaves
with `hit` only right after an evaluation `map(pos) < EPS`. -/
theorem marchLoop_spec (B : Builtins α) (U : Uniforms α) (ro rd : Vec3 α) (n : Nat) :
    ∀ (td : α) (pos : Vec3 α) (ev : Nat), pos = Vec3.add ro (Vec3.scale rd td) →
      (marchLoop B U ro rd n td pos ev).evals ≤ ev + n ∧
      (marchLoop B U ro rd n td pos ev).pos
        = Vec3.add ro (Vec3.scale rd (marchLoop B U ro rd n td pos ev).totalDist) ∧
      ((marchLoop B U ro rd n td pos ev).hit = true →
        map B U (marchLoop B U ro rd n td pos ev).pos < EPS) := by
  induction n with
  | zero =>
    intro td pos ev hpos
    simp [marchLoop, hpos]
  | succ n ih =>
    intro td pos ev hpos
    simp only [marchLoop]
    split_ifs with h1 h2
    · exact ⟨Nat.add_le_add_left (Nat.succ_le_succ (Nat.zero_le n)) ev, hpos, fun _ => h1⟩
    · refine ⟨Nat.add_le_add_left (Nat.succ_le_succ (Nat.zero_le n)) ev, hpos, ?_⟩
      intro h
      cases h
    · obtain ⟨a, b, c⟩ := ih (td + map B U pos)
        (Vec3.add ro (Vec3.scale rd (td + map B U pos))) (ev + 1) rfl
      exact ⟨by omega, b, c⟩

theorem rayOrigin_start (ro : Vec3 α) : ro = Vec3.add ro (Vec3.scale rayDir (0.0 : α)) := by
  cases ro
  simp only [Vec3.add, Vec3.scale, rayDir]
  norm_num

/-- When `map` is the constant `10`, the loop started at `totalDist = 0.0`
leaves through `totalDist > MAX_DIST` in its third iteration, without a hit. -/
theorem marchLoop_of_const (B : Builtins α) (U : Uniforms α) (ro rd : Vec3 α)
    (hmap : ∀ p, map B U p = 10) (n : Nat) (pos : Vec3 α) :
    (marchLoop B U ro rd (n + 3) 0.0 pos 0).hit = false := by
  simp only [marchLoop, hmap]
  norm_num [EPS, MAX_DIST]

/-- C10 (raymarch termination): for any uniforms and any pixel the raymarch
evaluates the scene distance at most `MAX_STEPS = 48` times and ends as hit or
miss; it ends as hit only if `map` at the final position
`rayOrigin + rayDir * totalDist` is below `0.001`, and when it ends as a miss
`main` outputs `(0, 0, 0, 0)`. -/
theorem raymarch_terminates (B : Builtins α) (U : Uniforms α) (fragCoord : Vec2 α) :
    (raymarch B U fragCoord).evals ≤ 48 ∧
    ((raymarch B U fragCoord).hit = true ∨ (raymarch B U fragCoord).hit = false) ∧
    ((raymarch B U fragCoord).hit = true →
      map B U (Vec3.add (rayOriginOf U fragCoord)
        (Vec3.scale rayDir (raymarch B U fragCoord).totalDist)) < 0.001) ∧
    ((raymarch B U fragCoord).hit = false → main B U fragCoord = ⟨0, 0, 0, 0⟩) := by
  obtain ⟨h1, h2, h3⟩ := marchLoop_spec B U (rayOriginOf U fragCoord) rayDir MAX_STEPS 0.0
    (rayOriginOf U fragCoord) 0 (rayOrigin_start _)
  refine ⟨?_, ?_, ?_, ?_⟩
  · simpa [raymarch, MAX_STEPS] using h1
  · cases (raymarch B U fragCoord).hit <;> simp
  · intro h
    have := h3 h
    rw [h2] at this
    simpa [raymarch, EPS] using this
  · intro h
    simp only [main, h]
    norm_num

/-- C6 (degenerate scene): if all four radii are below `0.001` then `map` is
the constant `MAX_DIST = 10`, and for every pixel (and any resolution, which is
part of the uniforms) the raymarch ends as a miss and `main` outputs
`(0, 0, 0, 0)`, so the alpha component is `0`. -/
theorem degenerate_scene_miss (B : Builtins α) (U : Uniforms α)
    (h : ∀ i, U.uRadii i < 0.001) :
    (∀ p, map B U p = 10) ∧
    ∀ fragCoord : Vec2 α,
      (raymarch B U fragCoord).hit = false ∧
      main B U fragCoord = ⟨0, 0, 0, 0⟩ ∧
      (main B U fragCoord).w = 0 := by
  have hmap : ∀ p, map B U p = (10 : α) := by
    intro p
    rw [map_of_degenerate B U h p]
    norm_num [MAX_DIST]
  have hhit : ∀ fragCoord : Vec2 α, (raymarch B U fragCoord).hit = false := by
    intro fragCoord
    exact marchLoop_of_const B U _ _ hmap 45 _
  refine ⟨hmap, fun fragCoord => ?_⟩
  have hm : main B U fragCoord = ⟨0, 0, 0, 0⟩ := by
    simp only [main, hhit fragCoord]
    norm_num
  refine ⟨hhit fragCoord, hm, ?_⟩
  rw [hm]

/-- Witness for C6: the mounted uniforms with all four radii set to `0`, at the
pixel `(100, 300)`. -/
theorem degenerate_scene_miss_witness :
    (∀ i : Fin 4, (![0, 0, 0, 0] : Fin 4 → ℝ) i < 0.001) ∧
    main (⟨Real.exp, Real.sqrt, Real.sin, fun x y => x ^ y⟩ : Builtins ℝ)
      { (mounted : State ℝ).u with uRadii := ![0, 0, 0, 0] } ⟨100, 300⟩ = ⟨0, 0, 0, 0⟩ := by
  have hr : ∀ i : Fin 4, (![0, 0, 0, 0] : Fin 4 → ℝ) i < 0.001 := by
    intro i
    fin_cases i <;> norm_num
  exact ⟨hr, ((degenerate_scene_miss
    (⟨Real.exp, Real.sqrt, Real.sin, fun x y => x ^ y⟩ : Builtins ℝ)
    { (mounted : State ℝ).u with uRadii := ![0, 0, 0, 0] } hr).2 ⟨100, 300⟩).2.1⟩

/-- One execution of the loop body for blob `i` changes the data of blob `i` by
`springStep` and leaves the other blobs alone. -/
theorem blobStep_blob (B : Builtins α) (active : Bool) (elapsed delta : α) (s : State α)
    (i j : Fin 4) :
    (blobStep B active elapsed delta s i).blob j
      = if j = i then springStep B active elapsed delta i (s.blob i) else s.blob j := by
  by_cases h : j = i
  · subst h
    simp [blobStep, State.blob, springStep, stiffnessOf, dampingOf, progressOf, Function.update]
  · simp [blobStep, State.blob, Function.update, h]

theorem loop_blob (B : Builtins α) (active : Bool) (elapsed delta : α) (l : List (Fin 4))
    (hl : l.Nodup) (s : State α) (j : Fin 4) :
    (l.foldl (blobStep B active elapsed delta) s).blob j
      = if j ∈ l then springStep B active elapsed delta j (s.blob j) else s.blob j := by
  induction l generalizing s with
  | nil => simp
  | cons a l ih =>
    rw [List.nodup_cons] at hl
    rw [List.foldl_cons, ih hl.2, blobStep_blob]
    by_cases h : j = a
    · subst h
      simp [hl.1]
    · simp [h]

theorem loop_flags (B : Builtins α) (active : Bool) (elapsed delta : α) (l : List (Fin 4))
    (s : State α) :
    (l.foldl (blobStep B active elapsed delta) s).anim.startTime = s.anim.startTime ∧
    (l.foldl (blobStep B active elapsed delta) s).anim.wasActive = s.anim.wasActive ∧
    (l.foldl (blobStep B active elapsed delta) s).u.uTime = s.u.uTime ∧
    (l.foldl (blobStep B active elapsed delta) s).u.uResolution = s.u.uResolution := by
  induction l generalizing s with
  | nil => simp
  | cons a l ih =>
    simp only [List.foldl_cons]
    obtain ⟨h1, h2, h3, h4⟩ := ih (blobStep B active elapsed delta s a)
    exact ⟨h1, h2, h3, h4⟩

/-- The start time against which a call of `update` measures `elapsed`. -/
theorem detectTransition_startTime (s : State α) (active : Bool) (t : α) :
    (detectTransition s active t).anim.startTime
      = if active = s.anim.wasActive then s.anim.startTime else t := by
  unfold detectTransition
  by_cases h : active = s.anim.wasActive <;> simp [h]

theorem detectTransition_blob (s : State α) (active : Bool) (t : α) (j : Fin 4) :
    (initVelocities (detectTransition s active t)).blob j
      = if active = s.anim.wasActive then s.blob j
        else { s.blob j with vy := 0, vr := 0 } := by
  unfold detectTransition initVelocities
  by_cases h : active = s.anim.wasActive
  · simp only [h, bne_self_eq_false, Bool.false_eq_true, if_false, if_true, State.blob]
    cases s.anim.velY <;> cases s.anim.velR <;> simp
  · simp [h, State.blob, zeros]
    fin_cases j <;> simp

/-- Effect of one call of `update` on the data of blob `j`. -/
theorem update_blob (B : Builtins α) (s : State α) (active : Bool) (t delta : α) (j : Fin 4) :
    (update B s active t delta).blob j
      = springStep B active
          (t - (if active = s.anim.wasActive then s.anim.startTime else t)) delta j
          (if active = s.anim.wasActive then s.blob j else { s.blob j with vy := 0, vr := 0 }) := by
  unfold update
  simp only []
  rw [loop_blob B active _ delta _ (List.nodup_finRange 4), detectTransition_startTime,
    detectTransition_blob]
  simp

theorem blob_y (s : State α) (i : Fin 4) : (s.u.uBalls i).y = (s.blob i).y := rfl
theorem blob_x (s : State α) (i : Fin 4) : (s.u.uBalls i).x = (s.blob i).x := rfl
theorem blob_z (s : State α) (i : Fin 4) : (s.u.uBalls i).z = (s.blob i).z := rfl
theorem blob_r (s : State α) (i : Fin 4) : s.anim.radii i = (s.blob i).r := rfl
theorem blob_ur (s : State α) (i : Fin 4) : s.u.uRadii i = (s.blob i).ur := rfl
theorem blob_vy (s : State α) (i : Fin 4) : s.anim.velY.getD zeros i = (s.blob i).vy := rfl
theorem blob_vr (s : State α) (i : Fin 4) : s.anim.velR.getD zeros i = (s.blob i).vr := rfl

/-- The delay of blob `i` is `i * 0.2`. -/
theorem childDelays_eq (i : Fin 4) : (childDelays i : α) = ((i : ℕ) : α) * 0.2 := by
  fin_cases i <;> simp [childDelays, staggerDelay] <;> norm_num

/-- The stored flag and start time after a call of `update`. -/
theorem update_flags (B : Builtins α) (s : State α) (active : Bool) (t delta : α) :
    (update B s active t delta).anim.wasActive = active ∧
    (update B s active t delta).anim.startTime
      = if active = s.anim.wasActive then s.anim.startTime else t := by
  obtain ⟨h1, h2, -, -⟩ := loop_flags B active
    (t - (detectTransition s active t).anim.startTime) delta (List.finRange 4)
    (initVelocities (detectTransition s active t))
  constructor
  · refine h2.trans ?_
    by_cases h : active = s.anim.wasActive <;> simp [initVelocities, detectTransition, h]
  · exact h1.trans (detectTransition_startTime s active t)

/-- With a zero delta `springStep` keeps `y`, `z`, `r` and both velocities. -/
theorem springStep_zero_delta (B : Builtins α) (hexp : B.exp 0 = 1) (active : Bool)
    (elapsed : α) (i : Fin 4) (b : BlobView α) :
    springStep B active elapsed 0 i b = { b with x := baseX, ur := max 0 b.r } := by
  simp [springStep, hexp]

/-- Effect of a zero-delta call of `update` on the data of blob `i`. -/
theorem update_blob_zero_delta (B : Builtins α) (hexp : B.exp 0 = 1) (s : State α)
    (active : Bool) (t : α) (i : Fin 4) :
    (update B s active t 0).blob i
      = { (if active = s.anim.wasActive then s.blob i else { s.blob i with vy := 0, vr := 0 }) with
          x := baseX
          ur := max 0 (s.blob i).r } := by
  rw [update_blob, springStep_zero_delta B hexp]
  by_cases hw : active = s.anim.wasActive <;> simp [hw]

/-- After a call of `update` the radius uniform of each blob is the clamped
state radius. -/
theorem update_uRadii_eq (B : Builtins α) (s : State α) (active : Bool) (t delta : α)
    (i : Fin 4) :
    (update B s active t delta).u.uRadii i = max 0 ((update B s active t delta).anim.radii i) := by
  have h := update_blob B s active t delta i
  have hur : (update B s active t delta).u.uRadii i = ((update B s active t delta).blob i).ur := rfl
  have hr : (update B s active t delta).anim.radii i = ((update B s active t delta).blob i).r := rfl
  rw [hur, hr, h]
  rfl

/-- Non-negative radius uniforms are preserved by any sequence of frame
callbacks. -/
theorem runFrames_uRadii_nonneg (B : Builtins α) (fs : List (Frame α)) :
    ∀ s : State α, (∀ i, 0 ≤ s.u.uRadii i) → ∀ i, 0 ≤ (runFrames B s fs).u.uRadii i := by
  induction fs with
  | nil => intro s hs i; exact hs i
  | cons f fs ih =>
    intro s hs i
    have step : ∀ j, 0 ≤ (useFrame B s f).u.uRadii j := by
      intro j
      unfold useFrame
      split_ifs
      · exact hs j
      · rw [update_uRadii_eq]
        exact le_max_left _ _
    exact ih (useFrame B s f) step i

theorem mounted_uRadii_nonneg (i : Fin 4) : (0 : α) ≤ (mounted : State α).u.uRadii i := by
  fin_cases i <;> norm_num [mounted]

/-- C2 (non-negativity): starting from the mounted state, after every call in
any sequence of frame callbacks (any `active` flags, clock times, deltas, with
the mesh present or not) the radius `uRadii[i]` handed to the shader is `≥ 0`
for each of the four blobs.  `fs.take n` is the sequence up to the `n`-th call. -/
theorem uRadii_nonneg (B : Builtins α) (fs : List (Frame α)) (n : Nat) (i : Fin 4) :
    0 ≤ (runFrames B mounted (fs.take n)).u.uRadii i :=
  runFrames_uRadii_nonneg B (fs.take n) mounted mounted_uRadii_nonneg i

/-- C9, as the code has it: after every call of `update` the radius handed to
the shader is the state radius clamped at `0`, `uRadii[i] = max(0, anim.radii[i])`,
hence `≥ 0`; the clamp is applied to the uniform only, the state radius
`anim.radii[i]` is stored as integrated. -/
theorem clamp_on_uniform_only (B : Builtins α) (s : State α) (active : Bool) (t delta : α)
    (i : Fin 4) :
    (update B s active t delta).u.uRadii i = max 0 ((update B s active t delta).anim.radii i) ∧
    0 ≤ (update B s active t delta).u.uRadii i ∧
    (update B s active t delta).anim.radii i
      = s.anim.radii i + (update B s active t delta).anim.velR.getD zeros i * delta := by
  refine ⟨update_uRadii_eq B s active t delta i, ?_, ?_⟩
  · rw [update_uRadii_eq]
    exact le_max_left _ _
  · have h := update_blob B s active t delta i
    have hr : (update B s active t delta).anim.radii i = ((update B s active t delta).blob i).r :=
      rfl
    have hv : (update B s active t delta).anim.velR.getD zeros i
        = ((update B s active t delta).blob i).vr := rfl
    rw [hr, hv, h]
    by_cases hw : active = s.anim.wasActive <;> simp [springStep, State.blob, hw]

/-- Bounds for a product `s * E` with `s ≤ 0 ≤ E`. -/
theorem neg_mul_interval (s E sl su El Eu : ℝ) (hs1 : sl ≤ s) (hs2 : s ≤ su) (hsu : su ≤ 0)
    (hE1 : El ≤ E) (hE2 : E ≤ Eu) (hEl : 0 ≤ El) :
    sl * Eu ≤ s * E ∧ s * E ≤ su * El := by
  have hs0 : s ≤ 0 := hs2.trans hsu
  have hEu : 0 ≤ Eu := hEl.trans (hE1.trans hE2)
  constructor
  · have h1 : s * Eu ≤ s * E := mul_le_mul_of_nonpos_left hE2 hs0
    have h2 : sl * Eu ≤ s * Eu := mul_le_mul_of_nonneg_right hs1 hEu
    linarith
  · have h1 : s * E ≤ s * El := mul_le_mul_of_nonpos_left hE1 hs0
    have h2 : s * El ≤ su * El := mul_le_mul_of_nonneg_right hs2 hEl
    linarith

/-- Interval facts from exact values. -/
theorem bounds_of_eq (x y r rl ru : ℝ) (hx : x = r) (hy : y = 0) (h1 : rl ≤ r) (h2 : r ≤ ru) :
    rl ≤ x ∧ x ≤ ru ∧ (0 : ℝ) ≤ y ∧ y ≤ (0 : ℝ) := by
  subst hx hy
  exact ⟨h1, h2, le_rfl, le_rfl⟩

/-- Radius part of one call of `update`, for blob `i`. -/
theorem update_radius (B : Builtins α) (s : State α) (active : Bool) (t dt : α) (i : Fin 4) :
    (update B s active t dt).anim.velR.getD zeros i
      = ((if active = s.anim.wasActive then s.anim.velR.getD zeros i else 0)
          + ((if childDelays i ≤ t - (if active = s.anim.wasActive then s.anim.startTime else t)
              then (if active then openRadii i else closedRadii i) else s.anim.radii i)
            - s.anim.radii i) * 60 * dt) * B.exp (-10 * dt) ∧
    (update B s active t dt).anim.radii i
      = s.anim.radii i + (update B s active t dt).anim.velR.getD zeros i * dt := by
  have h := update_blob B s active t dt i
  simp only [blob_vr, blob_r, h]
  by_cases hw : active = s.anim.wasActive
  · by_cases hel : childDelays i ≤ t - s.anim.startTime <;>
      simp [springStep, State.blob, hw, hel]
  · by_cases hel : childDelays i ≤ t - t <;>
      simp [springStep, State.blob, hw, hel]

/-- A frame in which blob `i` has not started and enters with zero radius
velocity (or with a transition, which resets it) keeps its radius. -/
theorem radius_hold_step (B : Builtins α) (s : State α) (active : Bool) (t dt : α) (i : Fin 4)
    (wa : Bool) (st st1 r : α) (hwa : s.anim.wasActive = wa) (hst : s.anim.startTime = st)
    (hr : s.anim.radii i = r) (hv : active = wa → s.anim.velR.getD zeros i = 0)
    (hst1 : st1 = if active = wa then st else t) (hel : t - st1 < childDelays i) :
    (update B s active t dt).anim.wasActive = active ∧
    (update B s active t dt).anim.startTime = st1 ∧
    (update B s active t dt).anim.radii i = r ∧
    (update B s active t dt).anim.velR.getD zeros i = 0 := by
  obtain ⟨f1, f2⟩ := update_flags B s active t dt
  obtain ⟨u1, u2⟩ := update_radius B s active t dt i
  rw [hwa, hst, ← hst1] at u1 f2
  have hnot : ¬ (childDelays i ≤ t - st1) := not_le.mpr hel
  have hv0 : (if active = wa then s.anim.velR.getD zeros i else 0) = 0 := by
    by_cases h : active = wa
    · rw [if_pos h]
      exact hv h
    · rw [if_neg h]
  rw [if_neg hnot, hv0] at u1
  have hzero : (update B s active t dt).anim.velR.getD zeros i = 0 := by
    rw [u1]
    simp
  refine ⟨f1, f2, ?_, hzero⟩
  rw [u2, hzero, hr]
  simp

/-- A frame without transition in which blob `i` has started. -/
theorem radius_started_step (B : Builtins α) (s : State α) (active : Bool) (t dt : α)
    (i : Fin 4) (st r v : α) (hwa : s.anim.wasActive = active) (hst : s.anim.startTime = st)
    (hr : s.anim.radii i = r) (hv : s.anim.velR.getD zeros i = v)
    (hel : childDelays i ≤ t - st) :
    (update B s active t dt).anim.wasActive = active ∧
    (update B s active t dt).anim.startTime = st ∧
    (update B s active t dt).anim.velR.getD zeros i
      = (v + ((if active then openRadii i else closedRadii i) - r) * 60 * dt)
        * B.exp (-10 * dt) ∧
    (update B s active t dt).anim.radii i
      = r + (v + ((if active then openRadii i else closedRadii i) - r) * 60 * dt)
        * B.exp (-10 * dt) * dt := by
  obtain ⟨f1, f2⟩ := update_flags B s active t dt
  obtain ⟨u1, u2⟩ := update_radius B s active t dt i
  rw [hwa, if_pos rfl, hst] at f2
  rw [hwa, if_pos rfl, if_pos rfl, hst, if_pos hel, hr, hv] at u1
  refine ⟨f1, f2, u1, ?_⟩
  rw [u2, u1, hr]

/-- A closing frame of delta `1/10` in which blob 1 has started, on intervals:
from bounds on radius and radius velocity before the frame to bounds after it,
with `exp(-1)` between `0.367879` and `0.36788`. -/
theorem closing_interval_step (s : State ℝ) (t st rl ru vl vu nrl nru nvl nvu : ℝ)
    (hwa : s.anim.wasActive = false) (hst : s.anim.startTime = st)
    (hb : rl ≤ s.anim.radii 1 ∧ s.anim.radii 1 ≤ ru ∧
      vl ≤ s.anim.velR.getD zeros 1 ∧ s.anim.velR.getD zeros 1 ≤ vu)
    (hel : 1 / 5 ≤ t - st) (hsu : vu - 6 * rl ≤ 0)
    (h1 : nvl ≤ (vl - 6 * ru) * (36788 / 100000))
    (h2 : (vu - 6 * rl) * (367879 / 1000000) ≤ nvu)
    (h3 : nrl ≤ rl + nvl / 10) (h4 : ru + nvu / 10 ≤ nru) :
    (update (⟨Real.exp, Real.sqrt, Real.sin, fun x y => x ^ y⟩ : Builtins ℝ) s false t (1 / 10)).anim.wasActive = false ∧
    (update (⟨Real.exp, Real.sqrt, Real.sin, fun x y => x ^ y⟩ : Builtins ℝ) s false t (1 / 10)).anim.startTime = st ∧
    (nrl ≤ (update (⟨Real.exp, Real.sqrt, Real.sin, fun x y => x ^ y⟩ : Builtins ℝ) s false t (1 / 10)).anim.radii 1 ∧
      (update (⟨Real.exp, Real.sqrt, Real.sin, fun x y => x ^ y⟩ : Builtins ℝ) s false t (1 / 10)).anim.radii 1 ≤ nru ∧
      nvl ≤ (update (⟨Real.exp, Real.sqrt, Real.sin, fun x y => x ^ y⟩ : Builtins ℝ) s false t (1 / 10)).anim.velR.getD zeros 1 ∧
      (update (⟨Real.exp, Real.sqrt, Real.sin, fun x y => x ^ y⟩ : Builtins ℝ) s false t (1 / 10)).anim.velR.getD zeros 1 ≤ nvu) := by
  have hEl : (367879 / 1000000 : ℝ) ≤ Real.exp (-1) := by
    have h := Real.exp_one_lt_d9
    have hpos := Real.exp_pos 1
    rw [Real.exp_neg, le_inv_comm₀ (by norm_num) hpos]
    norm_num
    linarith
  have hEu : Real.exp (-1) ≤ (36788 / 100000 : ℝ) := by
    have h := Real.exp_one_gt_d9
    have hpos := Real.exp_pos 1
    rw [Real.exp_neg, inv_le_comm₀ hpos (by norm_num)]
    norm_num
    linarith
  have hcd : (childDelays 1 : ℝ) ≤ t - st := by
    simp only [childDelays, staggerDelay]
    norm_num
    linarith
  obtain ⟨f1, f2, f3, f4⟩ := radius_started_step (⟨Real.exp, Real.sqrt, Real.sin, fun x y => x ^ y⟩ : Builtins ℝ) s false t (1 / 10) 1 st
    (s.anim.radii 1) (s.anim.velR.getD zeros 1) hwa hst rfl rfl hcd
  obtain ⟨b1, b2, b3, b4⟩ := hb
  have hE : (⟨Real.exp, Real.sqrt, Real.sin, fun x y => x ^ y⟩ : Builtins ℝ).exp (-10 * (1 / 10)) = Real.exp (-1) := by
    show Real.exp (-10 * (1 / 10)) = Real.exp (-1)
    norm_num
  have hs : (s.anim.velR.getD zeros 1
      + ((if false = true then openRadii 1 else closedRadii 1) - s.anim.radii 1) * 60 * (1 / 10))
        * (⟨Real.exp, Real.sqrt, Real.sin, fun x y => x ^ y⟩ : Builtins ℝ).exp (-10 * (1 / 10))
      = (s.anim.velR.getD zeros 1 - 6 * s.anim.radii 1) * Real.exp (-1) := by
    rw [hE]
    simp [closedRadii]
    ring
  rw [hs] at f3 f4
  obtain ⟨c1, c2⟩ := neg_mul_interval (s.anim.velR.getD zeros 1 - 6 * s.anim.radii 1)
    (Real.exp (-1)) (vl - 6 * ru) (vu - 6 * rl) (367879 / 1000000) (36788 / 100000)
    (by linarith) (by linarith) hsu hEl hEu (by norm_num)
  refine ⟨f1, f2, ?_, ?_, ?_, ?_⟩
  · rw [f4]
    linarith
  · rw [f4]
    linarith
  · rw [f3]
    linarith
  · rw [f3]
    linarith

/-- C9 fails as stated, with `Math.exp` the real exponential.  First, from a
state with `radii[1] = 0` and `velR[1] = -1`, one closed frame of delta `1`
leaves `anim.radii[1] = -exp(-10) < 0`.  Second, such states are reached from
mount: at 10 frames per second (clock `0, 0.1, ...`, delta `0.1`), three frames
with `active = true` followed by ten frames with `active = false` leave
`anim.radii[1] < 0`, the radius spring of blob 1 overshooting its closed
target `0`. -/
theorem state_radius_can_be_negative :
    ((update (⟨Real.exp, Real.sqrt, Real.sin, fun x y => x ^ y⟩ : Builtins ℝ)
      { anim := { radii := ![0.28, 0, 0, 0], startTime := 0, wasActive := false,
                  velY := some ![0, 0, 0, 0], velR := some ![0, -1, 0, 0] }
        u := mounted.u } false 1 1).anim.radii 1) < 0 ∧
    (runFrames (⟨Real.exp, Real.sqrt, Real.sin, fun x y => x ^ y⟩ : Builtins ℝ) mounted
      [⟨true, 0, 1 / 10, true⟩,
        ⟨true, 1 / 10, 1 / 10, true⟩,
        ⟨true, 1 / 5, 1 / 10, true⟩,
        ⟨false, 3 / 10, 1 / 10, true⟩,
        ⟨false, 2 / 5, 1 / 10, true⟩,
        ⟨false, 1 / 2, 1 / 10, true⟩,
        ⟨false, 3 / 5, 1 / 10, true⟩,
        ⟨false, 7 / 10, 1 / 10, true⟩,
        ⟨false, 4 / 5, 1 / 10, true⟩,
        ⟨false, 9 / 10, 1 / 10, true⟩,
        ⟨false, 1, 1 / 10, true⟩,
        ⟨false, 11 / 10, 1 / 10, true⟩,
        ⟨false, 6 / 5, 1 / 10, true⟩]).anim.radii 1 < 0 := by
  constructor
  · have hr : ∀ s : State ℝ, s.anim.radii 1 = (s.blob 1).r := fun _ => rfl
    rw [hr, update_blob]
    simp [springStep, State.blob, closedRadii, childDelays, staggerDelay, mounted]
    exact Real.exp_pos _
  simp only [runFrames, List.foldl_cons, List.foldl_nil, useFrame, Bool.not_true,
    Bool.false_eq_true, if_false]
  have hcd : ∀ x : ℝ, x < 1 / 5 → x < childDelays 1 := by
    intro x hx
    simp only [childDelays, staggerDelay]
    norm_num
    linarith
  have hr0 : (mounted : State ℝ).anim.radii 1 = 0 := by simp [mounted]
  have hv0 : (mounted : State ℝ).anim.velR.getD zeros 1 = 0 := by simp [mounted, zeros]
  obtain ⟨hwa1, hst1, hr1, hv1⟩ := radius_hold_step (⟨Real.exp, Real.sqrt, Real.sin, fun x y => x ^ y⟩ : Builtins ℝ) _ true 0 (1 / 10) 1
    false 0 0 0 rfl rfl hr0 (fun h => absurd h (by decide)) (by simp) (hcd _ (by norm_num))
  obtain ⟨hwa2, hst2, hr2, hv2⟩ := radius_hold_step (⟨Real.exp, Real.sqrt, Real.sin, fun x y => x ^ y⟩ : Builtins ℝ) _ true (1 / 10) (1 / 10) 1
    true 0 0 0 hwa1 hst1 hr1 (fun _ => hv1) (by simp) (hcd _ (by norm_num))
  obtain ⟨hwa3, hst3, hv3, hr3⟩ := radius_started_step (⟨Real.exp, Real.sqrt, Real.sin, fun x y => x ^ y⟩ : Builtins ℝ) _ true (1 / 5) (1 / 10) 1
    0 0 0 hwa2 hst2 hr2 hv2 (by simp only [childDelays, staggerDelay]; norm_num)
  have hE : (⟨Real.exp, Real.sqrt, Real.sin, fun x y => x ^ y⟩ : Builtins ℝ).exp (-10 * (1 / 10)) = Real.exp (-1) := by
    show Real.exp (-10 * (1 / 10)) = Real.exp (-1)
    norm_num
  rw [hE] at hv3 hr3
  have hr3' : _ = 9 / 50 * Real.exp (-1) := hr3.trans (by simp [openRadii]; ring)
  obtain ⟨hwa4, hst4, hr4, hv4⟩ := radius_hold_step (⟨Real.exp, Real.sqrt, Real.sin, fun x y => x ^ y⟩ : Builtins ℝ) _ false (3 / 10) (1 / 10) 1
    true 0 (3 / 10) (9 / 50 * Real.exp (-1)) hwa3 hst3 hr3' (fun h => absurd h (by decide)) (by simp) (hcd _ (by norm_num))
  obtain ⟨hwa5, hst5, hr5, hv5⟩ := radius_hold_step (⟨Real.exp, Real.sqrt, Real.sin, fun x y => x ^ y⟩ : Builtins ℝ) _ false (2 / 5) (1 / 10) 1
    false (3 / 10) (3 / 10) (9 / 50 * Real.exp (-1)) hwa4 hst4 hr4 (fun _ => hv4) (by simp) (hcd _ (by norm_num))
  have hEl : (367879 / 1000000 : ℝ) ≤ Real.exp (-1) := by
    have h := Real.exp_one_lt_d9
    have hpos := Real.exp_pos 1
    rw [Real.exp_neg, le_inv_comm₀ (by norm_num) hpos]
    norm_num
    linarith
  have hEu : Real.exp (-1) ≤ (36788 / 100000 : ℝ) := by
    have h := Real.exp_one_gt_d9
    have hpos := Real.exp_pos 1
    rw [Real.exp_neg, inv_le_comm₀ hpos (by norm_num)]
    norm_num
    linarith
  have hb5 := bounds_of_eq _ _ _ (331091 / 5000000) (82773 / 1250000) hr5 hv5 (by linarith) (by linarith)
  obtain ⟨hwa6, hst6, hb6⟩ := closing_interval_step _ (1 / 2) (3 / 10) (331091 / 5000000) (82773 / 1250000) 0 0
    (516019 / 10000000) (516023 / 10000000) (-(730813 / 5000000)) (-(1461617 / 10000000)) hwa5 hst5 hb5 (by norm_num) (by norm_num) (by norm_num) (by norm_num)
    (by norm_num) (by norm_num)
  obtain ⟨hwa7, hst7, hb7⟩ := closing_interval_step _ (3 / 5) (3 / 10) (516019 / 10000000) (516023 / 10000000) (-(730813 / 5000000)) (-(1461617 / 10000000))
    (348347 / 10000000) (174177 / 5000000) (-(1676711 / 10000000)) (-(1676693 / 10000000)) hwa6 hst6 hb6 (by norm_num) (by norm_num) (by norm_num) (by norm_num)
    (by norm_num) (by norm_num)
  obtain ⟨hwa8, hst8, hb8⟩ := closing_interval_step _ (7 / 10) (3 / 10) (348347 / 10000000) (174177 / 5000000) (-(1676711 / 10000000)) (-(1676693 / 10000000))
    (52443 / 2500000) (209783 / 10000000) (-(86609 / 625000)) (-(1385717 / 10000000)) hwa7 hst7 hb7 (by norm_num) (by norm_num) (by norm_num) (by norm_num)
    (by norm_num) (by norm_num)
  obtain ⟨hwa9, hst9, hb9⟩ := closing_interval_step _ (4 / 5) (3 / 10) (52443 / 2500000) (209783 / 10000000) (-(86609 / 625000)) (-(1385717 / 10000000))
    (14061 / 1250000) (112503 / 10000000) (-(486419 / 5000000)) (-(304 / 3125)) hwa8 hst8 hb8 (by norm_num) (by norm_num) (by norm_num) (by norm_num)
    (by norm_num) (by norm_num)
  obtain ⟨hwa10, hst10, hb10⟩ := closing_interval_step _ (9 / 10) (3 / 10) (14061 / 1250000) (112503 / 10000000) (-(486419 / 5000000)) (-(304 / 3125))
    (25933 / 5000000) (51887 / 10000000) (-(303107 / 5000000)) (-(151541 / 2500000)) hwa9 hst9 hb9 (by norm_num) (by norm_num) (by norm_num) (by norm_num)
    (by norm_num) (by norm_num)
  obtain ⟨hwa11, hst11, hb11⟩ := closing_interval_step _ 1 (3 / 10) (25933 / 5000000) (51887 / 10000000) (-(303107 / 5000000)) (-(151541 / 2500000))
    (18111 / 10000000) (907 / 500000) (-(42193 / 1250000)) (-(337477 / 10000000)) hwa10 hst10 hb10 (by norm_num) (by norm_num) (by norm_num) (by norm_num)
    (by norm_num) (by norm_num)
  obtain ⟨hwa12, hst12, hb12⟩ := closing_interval_step _ (11 / 10) (3 / 10) (18111 / 10000000) (907 / 500000) (-(42193 / 1250000)) (-(337477 / 10000000))
    (1689 / 10000000) (27 / 156250) (-(20527 / 1250000)) (-(82063 / 5000000)) hwa11 hst11 hb11 (by norm_num) (by norm_num) (by norm_num) (by norm_num)
    (by norm_num) (by norm_num)
  obtain ⟨hwa13, hst13, hb13⟩ := closing_interval_step _ (6 / 5) (3 / 10) (1689 / 10000000) (27 / 156250) (-(20527 / 1250000)) (-(82063 / 5000000))
    (-(2367 / 5000000)) (-(2341 / 5000000)) (-(32113 / 5000000)) (-(32053 / 5000000)) hwa12 hst12 hb12 (by norm_num) (by norm_num) (by norm_num) (by norm_num)
    (by norm_num) (by norm_num)
  exact lt_of_le_of_lt hb13.2.1 (by norm_num)

/-- C5 (transition detection and reset): in a call of `update` where `active`
differs from the stored flag, the stored flag becomes `active`, the start time
becomes the current clock time, and the per-blob loop of that frame is entered
with both velocity arrays equal to `[0, 0, 0, 0]`; when `active` equals the
stored flag, start time and stored flag are left unchanged. -/
theorem transition_reset (B : Builtins α) (s : State α) (active : Bool) (t delta : α) :
    (active ≠ s.anim.wasActive →
      (update B s active t delta).anim.wasActive = active ∧
      (update B s active t delta).anim.startTime = t ∧
      (initVelocities (detectTransition s active t)).anim.velY = some ![0, 0, 0, 0] ∧
      (initVelocities (detectTransition s active t)).anim.velR = some ![0, 0, 0, 0] ∧
      update B s active t delta
        = (List.finRange 4).foldl (blobStep B active (t - t) delta)
            (initVelocities (detectTransition s active t))) ∧
    (active = s.anim.wasActive →
      (update B s active t delta).anim.wasActive = s.anim.wasActive ∧
      (update B s active t delta).anim.startTime = s.anim.startTime) := by
  obtain ⟨h1, h2, -, -⟩ := loop_flags B active
    (t - (detectTransition s active t).anim.startTime) delta (List.finRange 4)
    (initVelocities (detectTransition s active t))
  have e1 : (update B s active t delta).anim.startTime
      = (detectTransition s active t).anim.startTime := h1
  have e2 : (update B s active t delta).anim.wasActive
      = (detectTransition s active t).anim.wasActive := h2
  constructor
  · intro hne
    have hst : (detectTransition s active t).anim.startTime = t := by
      rw [detectTransition_startTime, if_neg hne]
    refine ⟨?_, ?_, ?_, ?_, ?_⟩
    · rw [e2]
      simp [detectTransition, hne]
    · rw [e1, hst]
    · simp [initVelocities, detectTransition, hne, zeros]
    · simp [initVelocities, detectTransition, hne, zeros]
    · unfold update
      simp only [hst]
  · intro heq
    constructor
    · rw [e2]
      simp [detectTransition, heq]
    · rw [e1, detectTransition_startTime, if_pos heq]

/-- Witness for C5: the first opening frame after mount, at clock time `3`. -/
theorem transition_reset_witness :
    (true ≠ (mounted : State ℝ).anim.wasActive) ∧
    (update (⟨Real.exp, Real.sqrt, Real.sin, fun x y => x ^ y⟩ : Builtins ℝ) mounted true 3 (1 / 60)).anim.wasActive = true ∧
    (update (⟨Real.exp, Real.sqrt, Real.sin, fun x y => x ^ y⟩ : Builtins ℝ) mounted true 3 (1 / 60)).anim.startTime = 3 :=
  ⟨by simp [mounted],
   ((transition_reset (⟨Real.exp, Real.sqrt, Real.sin, fun x y => x ^ y⟩ : Builtins ℝ) mounted true 3 (1 / 60)).1
      (by simp [mounted])).1,
   ((transition_reset (⟨Real.exp, Real.sqrt, Real.sin, fun x y => x ^ y⟩ : Builtins ℝ) mounted true 3 (1 / 60)).1
      (by simp [mounted])).2.1⟩

/-- C8, as the code has it: the state created at mount has state radius `0.28`
for blob 0 (its radius uniform is `0.38`) and radius `0` for blobs 1, 2, 3, and
every blob at position `(0, 0.4, 0)`; this is not the closed target
(`x = baseX = 0.95`, `y = closedY = 2.96`). -/
theorem mounted_state :
    (mounted : State α).anim.radii 0 = 0.28 ∧
    (mounted : State α).u.uRadii 0 = 0.38 ∧
    (∀ i : Fin 4, i ≠ 0 → (mounted : State α).anim.radii i = 0 ∧
      (mounted : State α).u.uRadii i = 0) ∧
    (∀ i : Fin 4, (mounted : State α).u.uBalls i = ⟨0, 0.4, 0⟩) ∧
    (closedY : α) = 2.96 ∧ (baseX : α) = 0.95 ∧
    (∀ i : Fin 4, ((mounted : State α).u.uBalls i).y ≠ closedY ∧
      ((mounted : State α).u.uBalls i).x ≠ baseX) := by
  have hb : ∀ i : Fin 4, (mounted : State α).u.uBalls i = ⟨0, 0.4, 0⟩ := by
    intro i
    fin_cases i <;> simp [mounted]
  refine ⟨by simp [mounted], by simp [mounted], ?_, hb, rfl, rfl, ?_⟩
  · intro i hi
    fin_cases i
    · exact absurd rfl hi
    · simp [mounted]
    · simp [mounted]
    · simp [mounted]
  · intro i
    rw [hb i]
    constructor
    · simp only [closedY, baseY]
      norm_num
    · simp only [baseX]
      norm_num

/-- C8 fails as stated: at mount blob 0 is at height `0.4`, not at the closed
target height `closedY = 2.96`. -/
theorem mounted_not_at_closed_target :
    ¬ (((mounted : State ℚ).u.uBalls 0).y = closedY) := by
  simp only [mounted, closedY, baseY]
  norm_num

/-- C4, as the code has it: a call of `update` with `frameDeltaTime = 0`, for any
state, flag and clock time (given `exp 0 = 1`), leaves every blob's `y`, `z` and
state radius unchanged, sets `x` to `baseX` and the radius uniform to
`max(0, radius)`; both velocities (read as `0` before the arrays exist) are
unchanged when `active` equals the stored flag and are `0` when it differs. -/
theorem update_zero_delta (B : Builtins α) (hexp : B.exp 0 = 1) (s : State α) (active : Bool)
    (t delta : α) (hdelta : delta = 0) (i : Fin 4) :
    ((update B s active t delta).u.uBalls i).y = (s.u.uBalls i).y ∧
    ((update B s active t delta).u.uBalls i).z = (s.u.uBalls i).z ∧
    ((update B s active t delta).u.uBalls i).x = baseX ∧
    (update B s active t delta).anim.radii i = s.anim.radii i ∧
    (update B s active t delta).u.uRadii i = max 0 (s.anim.radii i) ∧
    (active = s.anim.wasActive →
      (update B s active t delta).anim.velY.getD zeros i = s.anim.velY.getD zeros i ∧
      (update B s active t delta).anim.velR.getD zeros i = s.anim.velR.getD zeros i) ∧
    (active ≠ s.anim.wasActive →
      (update B s active t delta).anim.velY.getD zeros i = 0 ∧
      (update B s active t delta).anim.velR.getD zeros i = 0) := by
  subst hdelta
  have h := update_blob_zero_delta B hexp s active t i
  simp only [blob_y, blob_x, blob_z, blob_r, blob_ur, blob_vy, blob_vr, h]
  by_cases hw : active = s.anim.wasActive <;> simp [hw]

/-- Witness for C4: a zero-delta closed frame on the mounted state. -/
theorem update_zero_delta_witness :
    Real.exp 0 = 1 ∧ (0 : ℝ) = 0 ∧ false = (mounted : State ℝ).anim.wasActive ∧
    ((update (⟨Real.exp, Real.sqrt, Real.sin, fun x y => x ^ y⟩ : Builtins ℝ)
      mounted false 5 0).u.uBalls 0).y = ((mounted : State ℝ).u.uBalls 0).y ∧
    (update (⟨Real.exp, Real.sqrt, Real.sin, fun x y => x ^ y⟩ : Builtins ℝ)
      mounted false 5 0).anim.velY.getD zeros 0
      = (mounted : State ℝ).anim.velY.getD zeros 0 := by
  have h := update_zero_delta (⟨Real.exp, Real.sqrt, Real.sin, fun x y => x ^ y⟩ : Builtins ℝ)
    Real.exp_zero mounted false 5 0 rfl 0
  have hflag : false = (mounted : State ℝ).anim.wasActive := by simp [mounted]
  exact ⟨Real.exp_zero, rfl, hflag, h.1, (h.2.2.2.2.2.1 hflag).1⟩

/-- C4 fails as stated, with `Math.exp` the real exponential: a zero-delta
frame on the mounted state moves blob 0 from `x = 0` to `x = 0.95` and changes
its radius uniform from `0.38` to `0.28`; and after one closed frame of delta `1`
from mount, a zero-delta frame with `active = true` resets the vertical velocity
of blob 0 from `256 * exp(-6)` to `0`. -/
theorem zero_delta_not_identity :
    ((update (⟨Real.exp, Real.sqrt, Real.sin, fun x y => x ^ y⟩ : Builtins ℝ)
        mounted false 0 0).u.uBalls 0).x ≠ ((mounted : State ℝ).u.uBalls 0).x ∧
    (update (⟨Real.exp, Real.sqrt, Real.sin, fun x y => x ^ y⟩ : Builtins ℝ)
        mounted false 0 0).u.uRadii 0 ≠ (mounted : State ℝ).u.uRadii 0 ∧
    (update (⟨Real.exp, Real.sqrt, Real.sin, fun x y => x ^ y⟩ : Builtins ℝ)
        (update (⟨Real.exp, Real.sqrt, Real.sin, fun x y => x ^ y⟩ : Builtins ℝ)
          mounted false 0 1) true 1 0).anim.velY.getD zeros 0
      ≠ (update (⟨Real.exp, Real.sqrt, Real.sin, fun x y => x ^ y⟩ : Builtins ℝ)
          mounted false 0 1).anim.velY.getD zeros 0 := by
  have hflag : (update (⟨Real.exp, Real.sqrt, Real.sin, fun x y => x ^ y⟩ : Builtins ℝ)
      mounted false 0 1).anim.wasActive = false :=
    (update_flags _ mounted false 0 1).1
  have hv : (update (⟨Real.exp, Real.sqrt, Real.sin, fun x y => x ^ y⟩ : Builtins ℝ)
      mounted false 0 1).anim.velY.getD zeros 0 = 256 * Real.exp (-6) := by
    rw [blob_vy, update_blob]
    have hmin : |(64 : ℝ) / 25| / (31 / 25) ⊓ 1 = 1 := by
      rw [abs_of_pos (by norm_num)]
      norm_num
    simp [springStep, stiffnessOf, dampingOf, progressOf, State.blob, mounted, childDelays, closedY, baseY,
      spacing, zeros]
    norm_num [hmin]
  refine ⟨?_, ?_, ?_⟩
  · rw [blob_x, update_blob_zero_delta _ Real.exp_zero]
    simp only [State.blob, mounted, baseX]
    norm_num
  · rw [blob_ur, update_blob_zero_delta _ Real.exp_zero]
    simp only [State.blob, mounted]
    norm_num
  · rw [hv, blob_vy, update_blob_zero_delta _ Real.exp_zero, hflag]
    have := Real.exp_pos (-6)
    simp only [Bool.true_eq_false, if_false]
    linarith

/-- While its delay has not passed, a blob at vertical rest is held: the loop
body keeps `y` and the zero vertical velocity. -/
theorem springStep_hold (B : Builtins α) (active : Bool) (elapsed delta : α) (i : Fin 4)
    (b : BlobView α) (hel : elapsed < childDelays i) (hv : b.vy = 0) :
    (springStep B active elapsed delta i b).y = b.y ∧
    (springStep B active elapsed delta i b).vy = 0 := by
  have hd : ¬ (childDelays i ≤ elapsed) := not_le.mpr hel
  simp [springStep, hd, hv]

/-- The hold phase over a sequence of frames: with `active` stored as `true`,
start time `T` and blob `i` at vertical rest, frames with `active = true`
and clock below `T + i * 0.2` do not move blob `i` vertically. -/
theorem runFrames_hold (B : Builtins α) (T : α) (i : Fin 4) (fs : List (Frame α)) :
    ∀ s : State α, s.anim.wasActive = true → s.anim.startTime = T →
      s.anim.velY.getD zeros i = 0 →
      (∀ f ∈ fs, f.active = true ∧ f.elapsedTime < T + ((i : ℕ) : α) * 0.2) →
      ((runFrames B s fs).u.uBalls i).y = (s.u.uBalls i).y := by
  induction fs with
  | nil => intro s _ _ _ _; rfl
  | cons f fs ih =>
    intro s hw hT hv hfs
    obtain ⟨hfa, hft⟩ := hfs f (List.mem_cons_self _ _)
    have hrest : ∀ g ∈ fs, g.active = true ∧ g.elapsedTime < T + ((i : ℕ) : α) * 0.2 :=
      fun g hg => hfs g (List.mem_cons_of_mem _ hg)
    show ((runFrames B (useFrame B s f) fs).u.uBalls i).y = (s.u.uBalls i).y
    by_cases hm : f.meshReady = true
    · have hu : useFrame B s f = update B s f.active f.elapsedTime f.delta := by
        simp [useFrame, hm]
      have hsame : f.active = s.anim.wasActive := by rw [hfa, hw]
      have hb := update_blob B s f.active f.elapsedTime f.delta i
      rw [if_pos hsame, if_pos hsame, hT] at hb
      have hel : f.elapsedTime - T < childDelays i := by
        rw [childDelays_eq]
        linarith
      obtain ⟨hy, hvy⟩ := springStep_hold B f.active (f.elapsedTime - T) f.delta i (s.blob i)
        hel hv
      obtain ⟨hf1, hf2⟩ := update_flags B s f.active f.elapsedTime f.delta
      rw [if_pos hsame, hT] at hf2
      rw [hu, ih _ (hf1.trans hfa) hf2 (by rw [blob_vy, hb]; exact hvy) hrest, blob_y, hb]
      exact hy
    · have hu : useFrame B s f = s := by
        simp [useFrame, hm]
      rw [hu]
      exact ih s hw hT hv hrest

theorem progressOf_mem (active : Bool) (distY : α) (hd : 0 ≤ distY) :
    0 ≤ progressOf active distY ∧ progressOf active distY ≤ 1 := by
  have hsp : (0 : α) < spacing * 2 := by
    simp only [spacing]
    norm_num
  have h0 : 0 ≤ min (distY / (spacing * 2)) 1 := le_min (div_nonneg hd hsp.le) zero_le_one
  have h1 : min (distY / (spacing * 2)) 1 ≤ 1 := min_le_right _ _
  cases active
  · simp only [progressOf, Bool.false_eq_true, if_false]
    exact ⟨h0, h1⟩
  · simp only [progressOf, if_true]
    constructor <;> linarith

/-- The stiffness of the vertical spring is at least `25`. -/
theorem stiffnessOf_pos (active : Bool) (distY : α) (hd : 0 ≤ distY) :
    0 < stiffnessOf active distY := by
  obtain ⟨h0, -⟩ := progressOf_mem active distY hd
  cases active
  · simp only [stiffnessOf, Bool.false_eq_true, if_false]
    linarith
  · simp only [stiffnessOf, if_true]
    linarith

/-- A started blob at rest away from its target moves, in height and in radius,
in a frame of positive delta. -/
theorem springStep_started_moves (B : Builtins α) (hexp : ∀ x, 0 < B.exp x) (active : Bool)
    (elapsed delta : α) (i : Fin 4) (b : BlobView α) (hel : childDelays i ≤ elapsed)
    (hdelta : 0 < delta) (hvy : b.vy = 0) (hvr : b.vr = 0) :
    (b.y ≠ (if active then openPositions i else closedY) →
      (springStep B active elapsed delta i b).y ≠ b.y) ∧
    (b.r ≠ (if active then openRadii i else closedRadii i) →
      (springStep B active elapsed delta i b).r ≠ b.r) := by
  constructor
  · intro hne
    have hk := stiffnessOf_pos active |(if active then openPositions i else closedY) - b.y|
      (abs_nonneg _)
    have hE := hexp (-dampingOf active |(if active then openPositions i else closedY) - b.y|
      * delta)
    have hsub : (if active then openPositions i else closedY) - b.y ≠ 0 :=
      sub_ne_zero.mpr (Ne.symm hne)
    simp only [springStep, hel, ge_iff_le, decide_True, if_true, hvy, zero_add]
    intro h
    have h2 := add_left_cancel (a := b.y) (h.trans (add_zero _).symm)
    have := mul_ne_zero (mul_ne_zero (mul_ne_zero (mul_ne_zero hsub hk.ne') hdelta.ne') hE.ne')
      hdelta.ne'
    exact this h2
  · intro hne
    have hE := hexp (-10 * delta)
    have hsub : (if active then openRadii i else closedRadii i) - b.r ≠ 0 :=
      sub_ne_zero.mpr (Ne.symm hne)
    simp only [springStep, hel, ge_iff_le, decide_True, if_true, hvr, zero_add]
    intro h
    have h2 := add_left_cancel (a := b.r) (h.trans (add_zero _).symm)
    have h60 : (60 : α) ≠ 0 := by norm_num
    have := mul_ne_zero (mul_ne_zero (mul_ne_zero (mul_ne_zero hsub h60) hdelta.ne') hE.ne')
      hdelta.ne'
    exact this h2

/-- C3 (staggered onset): let `active` flip to `true` in a call of `update` at
clock time `T` (stored flag `false` before).  For every blob `i` and every
later frame `f`, reached through frames `fs`, all with `active = true`, delta
`≥ 0` and a non-decreasing clock, if the clock of `f` is below `T + i * 0.2`
then the height of blob `i` after `f` equals its height before the transition.
Blob 0 has delay `0`: in the transition frame itself (positive delta, positive
`exp`) it already moves, in height when it is not at `openPositions[0]` and in
radius when it is not at `openRadii[0]`. -/
theorem staggered_onset (B : Builtins α) (s : State α) (T d0 : α)
    (hs : s.anim.wasActive = false) :
    (∀ (i : Fin 4) (fs : List (Frame α)) (f : Frame α),
      (∀ g ∈ fs ++ [f], g.active = true) →
      (∀ g ∈ fs ++ [f], 0 ≤ g.delta) →
      List.Chain (fun a b => a ≤ b) T ((fs ++ [f]).map Frame.elapsedTime) →
      f.elapsedTime < T + ((i : ℕ) : α) * 0.2 →
      ((runFrames B (update B s true T d0) (fs ++ [f])).u.uBalls i).y = (s.u.uBalls i).y) ∧
    (childDelays 0 = (0 : α) ∧
      ((∀ x, 0 < B.exp x) → 0 < d0 →
        ((s.u.uBalls 0).y ≠ openPositions 0 →
          ((update B s true T d0).u.uBalls 0).y ≠ (s.u.uBalls 0).y) ∧
        (s.anim.radii 0 ≠ openRadii 0 →
          (update B s true T d0).anim.radii 0 ≠ s.anim.radii 0))) := by
  have hne : ¬ (true = s.anim.wasActive) := by rw [hs]; simp
  have hb : ∀ i, (update B s true T d0).blob i
      = springStep B true 0 d0 i { s.blob i with vy := 0, vr := 0 } := by
    intro i
    have h := update_blob B s true T d0 i
    rw [if_neg hne, if_neg hne, sub_self] at h
    exact h
  obtain ⟨hf1, hf2⟩ := update_flags B s true T d0
  rw [if_neg hne] at hf2
  refine ⟨?_, ?_, ?_⟩
  · intro i fs f hact _ hmono hlt
    have hpc := List.pairwise_cons.mp (List.chain_iff_pairwise.mp hmono)
    have hpw := hpc.2
    rw [List.map_append, List.pairwise_append] at hpw
    have hT : T ≤ f.elapsedTime := hpc.1 f.elapsedTime (by simp)
    have hall : ∀ g ∈ fs ++ [f],
        g.active = true ∧ g.elapsedTime < T + ((i : ℕ) : α) * 0.2 := by
      intro g hg
      refine ⟨hact g hg, ?_⟩
      rcases List.mem_append.mp hg with hg1 | hg1
      · exact lt_of_le_of_lt
          (hpw.2.2 g.elapsedTime (List.mem_map_of_mem _ hg1) f.elapsedTime (by simp)) hlt
      · rw [List.mem_singleton.mp hg1]
        exact hlt
    have hel : (0 : α) < childDelays i := by
      rw [childDelays_eq]
      linarith
    obtain ⟨hy, hvy⟩ := springStep_hold B true 0 d0 i { s.blob i with vy := 0, vr := 0 } hel rfl
    rw [runFrames_hold B T i (fs ++ [f]) _ hf1 hf2 (by rw [blob_vy, hb]; exact hvy) hall,
      blob_y, hb]
    exact hy
  · simp [childDelays]
  · intro hexp hd0
    have h0 : childDelays (0 : Fin 4) ≤ (0 : α) := by simp [childDelays]
    obtain ⟨m1, m2⟩ := springStep_started_moves B hexp true 0 d0 0
      { s.blob 0 with vy := 0, vr := 0 } h0 hd0 rfl rfl
    have ey : ((update B s true T d0).u.uBalls 0).y = _ := congrArg BlobView.y (hb 0)
    have er : (update B s true T d0).anim.radii 0 = _ := congrArg BlobView.r (hb 0)
    rw [ey, er]
    exact ⟨fun h => m1 h, fun h => m2 h⟩

/-- Witness for C3: opening at clock `1` from the mounted state; blob 1 is held
in a later frame at clock `1.1`, blob 0 moves in the transition frame. -/
theorem staggered_onset_witness :
    (mounted : State ℝ).anim.wasActive = false ∧
    ((runFrames (⟨Real.exp, Real.sqrt, Real.sin, fun x y => x ^ y⟩ : Builtins ℝ)
        (update (⟨Real.exp, Real.sqrt, Real.sin, fun x y => x ^ y⟩ : Builtins ℝ)
          mounted true 1 (1 / 60))
        ([] ++ [⟨true, 11 / 10, 1 / 60, true⟩])).u.uBalls 1).y = (mounted.u.uBalls 1).y ∧
    ((update (⟨Real.exp, Real.sqrt, Real.sin, fun x y => x ^ y⟩ : Builtins ℝ)
        mounted true 1 (1 / 60)).u.uBalls 0).y ≠ ((mounted : State ℝ).u.uBalls 0).y := by
  have h := staggered_onset (⟨Real.exp, Real.sqrt, Real.sin, fun x y => x ^ y⟩ : Builtins ℝ)
    mounted 1 (1 / 60) (by simp [mounted])
  refine ⟨by simp [mounted], ?_, ?_⟩
  · refine h.1 1 [] ⟨true, 11 / 10, 1 / 60, true⟩ (by simp) ?_ ?_ ?_
    · simp
    · simp
      norm_num
    · norm_num
  · refine (h.2.2 Real.exp_pos (by norm_num)).1 ?_
    simp only [mounted, openPositions, baseY]
    norm_num

end Theorems

section Potential

open Filter Topology

/-- A function that is `≥ 0` to the right of `a` and `≤ 0` to the left of `a`
has a non-negative integral from `a` to any `b`. -/
theorem integral_nonneg_of_sign {φ : ℝ → ℝ} (a b : ℝ)
    (hr : ∀ x, a ≤ x → 0 ≤ φ x) (hl : ∀ x, x ≤ a → φ x ≤ 0) :
    0 ≤ ∫ x in a..b, φ x := by
  rcases le_total a b with hab | hab
  · exact intervalIntegral.integral_nonneg hab (fun x hx => hr x hx.1)
  · rw [intervalIntegral.integral_symm]
    have h : 0 ≤ ∫ x in b..a, -φ x :=
      intervalIntegral.integral_nonneg hab (fun x hx => neg_nonneg.mpr (hl x hx.2))
    rw [intervalIntegral.integral_neg] at h
    exact h

/-- The integral of an affine function. -/
theorem integral_affine (c K e h : ℝ) :
    ∫ x in e..(e + h), (c + K * (x - e)) = c * h + K / 2 * h ^ 2 := by
  have h1 : ∀ x ∈ Set.uIcc e (e + h),
      HasDerivAt (fun x => c * x + K / 2 * (x - e) ^ 2) (c + K * (x - e)) x := by
    intro x _
    have := ((hasDerivAt_id x).const_mul c).add
      ((((hasDerivAt_id x).sub_const e).pow 2).const_mul (K / 2))
    convert this using 1
    simp
    ring
  rw [intervalIntegral.integral_eq_sub_of_hasDerivAt h1
    (Continuous.intervalIntegrable (by fun_prop) _ _)]
  ring

/-- The potential of a continuous force whose slope is bounded above by `K`
grows at most quadratically along a step: with `G e = ∫₀ᵉ F`,
`G (e + h) - G e ≤ F e * h + K / 2 * h²`. -/
theorem potential_step (F : ℝ → ℝ) (hF : Continuous F) (K : ℝ)
    (hK : ∀ x y, y ≤ x → F x - F y ≤ K * (x - y)) (e h : ℝ) :
    (∫ x in (0 : ℝ)..(e + h), F x) - (∫ x in (0 : ℝ)..e, F x)
      ≤ F e * h + K / 2 * h ^ 2 := by
  have hint : ∀ a b : ℝ, IntervalIntegrable F MeasureTheory.volume a b :=
    fun a b => hF.intervalIntegrable a b
  rw [intervalIntegral.integral_interval_sub_left (hint _ _) (hint _ _)]
  have key : 0 ≤ ∫ x in e..(e + h), (F e + K * (x - e) - F x) := by
    apply integral_nonneg_of_sign
    · intro x hx
      have := hK x e hx
      linarith
    · intro x hx
      have := hK e x hx
      linarith
  rw [intervalIntegral.integral_sub (Continuous.intervalIntegrable (by fun_prop) _ _) (hint _ _),
    integral_affine] at key
  linarith

/-- Sector bounds for the potential of `F x = k x * x` with `klo ≤ k ≤ khi`. -/
theorem potential_sector (k : ℝ → ℝ) (hk : Continuous k) (klo khi : ℝ)
    (hlo : ∀ x, klo ≤ k x) (hhi : ∀ x, k x ≤ khi) (e : ℝ) :
    klo / 2 * e ^ 2 ≤ ∫ x in (0 : ℝ)..e, k x * x ∧
    (∫ x in (0 : ℝ)..e, k x * x) ≤ khi / 2 * e ^ 2 := by
  have hint : ∀ a b : ℝ, IntervalIntegrable (fun x => k x * x) MeasureTheory.volume a b :=
    fun a b => (hk.mul continuous_id).intervalIntegrable a b
  have hlin : ∀ c : ℝ, ∫ x in (0 : ℝ)..e, (0 + c * (x - 0)) = c / 2 * e ^ 2 := by
    intro c
    have := integral_affine 0 c 0 e
    simpa using this
  constructor
  · have key : 0 ≤ ∫ x in (0 : ℝ)..e, (k x * x - (0 + klo * (x - 0))) := by
      apply integral_nonneg_of_sign
      · intro x hx
        have := mul_le_mul_of_nonneg_right (hlo x) hx
        linarith
      · intro x hx
        have := mul_le_mul_of_nonpos_right (hlo x) hx
        linarith
    rw [intervalIntegral.integral_sub (hint _ _)
      (Continuous.intervalIntegrable (by fun_prop) _ _), hlin] at key
    linarith
  · have key : 0 ≤ ∫ x in (0 : ℝ)..e, ((0 + khi * (x - 0)) - k x * x) := by
      apply integral_nonneg_of_sign
      · intro x hx
        have := mul_le_mul_of_nonneg_right (hhi x) hx
        linarith
      · intro x hx
        have := mul_le_mul_of_nonpos_right (hhi x) hx
        linarith
    rw [intervalIntegral.integral_sub (Continuous.intervalIntegrable (by fun_prop) _ _)
      (hint _ _), hlin] at key
    linarith

/-- Geometric decay from some index on forces convergence to `0`. -/
theorem tendsto_zero_of_contract (V : ℕ → ℝ) (ρ : ℝ) (hρ0 : 0 ≤ ρ) (hρ : ρ < 1) (N : ℕ)
    (hV0 : ∀ n, 0 ≤ V n) (hstep : ∀ n, N ≤ n → V (n + 1) ≤ ρ * V n) :
    Tendsto V atTop (𝓝 0) := by
  have hbound : ∀ m, V (m + N) ≤ ρ ^ m * V N := by
    intro m
    induction m with
    | zero => simp
    | succ m ih =>
      have h1 := hstep (m + N) (Nat.le_add_left N m)
      have h2 : V (m + 1 + N) = V (m + N + 1) := by
        congr 1
        omega
      rw [h2, pow_succ]
      calc V (m + N + 1) ≤ ρ * V (m + N) := h1
        _ ≤ ρ * (ρ ^ m * V N) := mul_le_mul_of_nonneg_left ih hρ0
        _ = ρ ^ m * ρ * V N := by ring
  have hlim : Tendsto (fun m => ρ ^ m * V N) atTop (𝓝 0) := by
    have := (tendsto_pow_atTop_nhds_zero_of_lt_one hρ0 hρ).mul_const (V N)
    simpa using this
  have hshift : Tendsto (fun m => V (m + N)) atTop (𝓝 0) :=
    squeeze_zero (fun m => hV0 _) hbound hlim
  exact (tendsto_add_atTop_iff_nat N).mp hshift

end Potential

section EnergyStep

/-- A quadratic form with positive determinant margin dominates a multiple of
the Euclidean norm. -/
theorem quad_form_lower (a b δ z w : ℝ) (ha : a ≤ 1 / 2) (hδ : 0 < δ)
    (hdet : δ ≤ a / 2 - b ^ 2) :
    δ * (z ^ 2 + w ^ 2) ≤ a * z ^ 2 + 2 * b * z * w + w ^ 2 / 2 := by
  have hb : 0 ≤ b ^ 2 := sq_nonneg b
  have hδ2 : δ ≤ 1 / 4 := by linarith
  have hpos : 0 < 1 / 2 - δ := by linarith
  have hprod : b ^ 2 ≤ (a - δ) * (1 / 2 - δ) := by nlinarith
  have key : 0 ≤ (1 / 2 - δ) * ((a - δ) * z ^ 2 + 2 * b * z * w + (1 / 2 - δ) * w ^ 2) := by
    have e : (1 / 2 - δ) * ((a - δ) * z ^ 2 + 2 * b * z * w + (1 / 2 - δ) * w ^ 2)
        = ((1 / 2 - δ) * w + b * z) ^ 2 + ((a - δ) * (1 / 2 - δ) - b ^ 2) * z ^ 2 := by ring
    rw [e]
    have := sq_nonneg ((1 / 2 - δ) * w + b * z)
    have := mul_nonneg (sub_nonneg.mpr hprod) (sq_nonneg z)
    linarith
  have := nonneg_of_mul_nonneg_right key hpos
  linarith

/-- Concavity in `r`: the margin inequality at the two ends of `[r1, r2]` gives
it on the whole interval, for every damping factor `E ≤ Emax`. -/
theorem margin_interp (Emax c μ r1 r2 : ℝ) (hEmax : 0 ≤ Emax) (hc : 0 ≤ c)
    (h1 : Emax * (1 + r1 ^ 2 + c) + μ ≤ 2 * r1) (h2 : Emax * (1 + r2 ^ 2 + c) + μ ≤ 2 * r2)
    (E r : ℝ) (hE : E ≤ Emax) (hr : r1 ≤ r) (hr' : r ≤ r2) :
    E * (1 + r ^ 2 + c) + μ ≤ 2 * r := by
  have hmax : Emax * (1 + r ^ 2 + c) + μ ≤ 2 * r := by
    rcases eq_or_lt_of_le (hr.trans hr') with h12 | h12
    · have : r = r1 := le_antisymm (h12 ▸ hr') hr
      rw [this]
      exact h1
    · have hpos : 0 < r2 - r1 := sub_pos.mpr h12
      have key : 0 ≤ (r2 - r1) * (2 * r - (Emax * (1 + r ^ 2 + c) + μ)) := by
        have e : (r2 - r1) * (2 * r - (Emax * (1 + r ^ 2 + c) + μ))
            = (r2 - r) * (2 * r1 - (Emax * (1 + r1 ^ 2 + c) + μ))
              + (r - r1) * (2 * r2 - (Emax * (1 + r2 ^ 2 + c) + μ))
              + Emax * ((r2 - r1) * ((r - r1) * (r2 - r))) := by ring
        rw [e]
        have a1 := mul_nonneg (sub_nonneg.mpr hr') (sub_nonneg.mpr h1)
        have a2 := mul_nonneg (sub_nonneg.mpr hr) (sub_nonneg.mpr h2)
        have a3 := mul_nonneg hEmax
          (mul_nonneg hpos.le (mul_nonneg (sub_nonneg.mpr hr) (sub_nonneg.mpr hr')))
        linarith
      have := nonneg_of_mul_nonneg_right key hpos
      linarith
  have hfac : 0 ≤ 1 + r ^ 2 + c := by positivity
  have := mul_le_mul_of_nonneg_right hE hfac
  linarith

/-- The square of the new position error is bounded by the kick `w = k e dt`
and the undamped velocity `z`. -/
theorem new_error_sq_le (e z w k kmin E dt : ℝ) (hdt : 0 < dt) (hkmin : 0 < kmin)
    (hk : kmin ≤ k) (hE0 : 0 ≤ E) (hE1 : E ≤ 1) (hw : w = k * e * dt) :
    (e + E * z * dt) ^ 2 ≤ 2 * (w ^ 2 / (kmin * dt) ^ 2) + 2 * (z ^ 2 * dt ^ 2) := by
  have hk0 : 0 < k := lt_of_lt_of_le hkmin hk
  have he : e = w / (k * dt) := by
    rw [hw]
    field_simp
    ring
  have hsq : (e + E * z * dt) ^ 2 ≤ 2 * e ^ 2 + 2 * (E * z * dt) ^ 2 := by
    have := sq_nonneg (e - E * z * dt)
    nlinarith
  have hE2 : E ^ 2 ≤ 1 := by
    have := mul_le_mul hE1 hE1 hE0 zero_le_one
    rw [pow_two]
    linarith
  have hEzd : (E * z * dt) ^ 2 ≤ z ^ 2 * dt ^ 2 := by
    have e1 : (E * z * dt) ^ 2 = E ^ 2 * (z ^ 2 * dt ^ 2) := by ring
    rw [e1]
    have := mul_le_mul_of_nonneg_right hE2 (mul_nonneg (sq_nonneg z) (sq_nonneg dt))
    linarith
  have he2 : e ^ 2 ≤ w ^ 2 / (kmin * dt) ^ 2 := by
    rw [he, div_pow]
    apply div_le_div_of_nonneg_left (sq_nonneg w) (by positivity)
    have : kmin * dt ≤ k * dt := mul_le_mul_of_nonneg_right hk hdt.le
    exact pow_le_pow_left₀ (by positivity) this 2
  linarith

/-- Algebraic core of the energy estimate, in the variables `z = v - k e dt`
(velocity after the kick) and `w = k e dt` (the kick): `Un`, `Uo` are the new
and the old potential energy. -/
theorem energy_step_core (z w E r K dt Un Uo κhi kmin Emin μ en : ℝ)
    (hκ : 0 ≤ κhi) (hkmin : 0 < kmin) (hdt : 0 < dt) (hEmin : 0 < Emin) (hμ : 0 < μ)
    (hK : 0 ≤ K) (hE : Emin ≤ E) (hE1 : E ≤ 1)
    (hm : E * (1 + r ^ 2 + K * dt ^ 2) + μ ≤ 2 * r)
    (hgrow : Un - Uo ≤ r * E * z * w + K / 2 * dt ^ 2 * E ^ 2 * z ^ 2)
    (hUn : Un ≤ κhi * en ^ 2)
    (hen : en ^ 2 ≤ 2 * (w ^ 2 / (kmin * dt) ^ 2) + 2 * (z ^ 2 * dt ^ 2)) :
    (E * z) ^ 2 / 2 + Un
      ≤ (1 / 2 + 2 * κhi * dt ^ 2 + 2 * κhi / (kmin * dt) ^ 2)
          / ((1 / 2 + 2 * κhi * dt ^ 2 + 2 * κhi / (kmin * dt) ^ 2) + Emin * μ / 4)
        * ((z + w) ^ 2 / 2 + Uo) := by
  have hE0 : 0 < E := lt_of_lt_of_le hEmin hE
  have hδ : 0 < Emin * μ / 4 := by positivity
  have hC : 0 < 1 / 2 + 2 * κhi * dt ^ 2 + 2 * κhi / (kmin * dt) ^ 2 := by positivity
  have hE2 : E ^ 2 ≤ 1 := by
    have := mul_le_mul hE1 hE1 hE0.le zero_le_one
    rw [pow_two]
    linarith
  have hdet : Emin * μ / 4
      ≤ ((1 - E ^ 2 * (1 + K * dt ^ 2)) / 2) / 2 - ((1 - r * E) / 2) ^ 2 := by
    have e2 : ((1 - E ^ 2 * (1 + K * dt ^ 2)) / 2) / 2 - ((1 - r * E) / 2) ^ 2
        = E * (2 * r - E * (1 + r ^ 2 + K * dt ^ 2)) / 4 := by ring
    rw [e2]
    have : Emin * μ ≤ E * (2 * r - E * (1 + r ^ 2 + K * dt ^ 2)) :=
      mul_le_mul hE (by linarith) hμ.le hE0.le
    linarith
  have ha : (1 - E ^ 2 * (1 + K * dt ^ 2)) / 2 ≤ 1 / 2 := by
    have : 0 ≤ E ^ 2 * (1 + K * dt ^ 2) := by positivity
    linarith
  have hq := quad_form_lower ((1 - E ^ 2 * (1 + K * dt ^ 2)) / 2) ((1 - r * E) / 2)
    (Emin * μ / 4) z w ha hδ hdet
  have hEz : (E * z) ^ 2 ≤ z ^ 2 := by
    have := mul_le_mul_of_nonneg_right hE2 (sq_nonneg z)
    rw [mul_pow]
    linarith
  have hx := mul_le_mul_of_nonneg_left hen hκ
  have hz2 : 0 ≤ z ^ 2 := sq_nonneg z
  have hw2 : 0 ≤ w ^ 2 := sq_nonneg w
  have hcoef : 0 ≤ 2 * κhi / (kmin * dt) ^ 2 := by positivity
  have hcoef2 : 0 ≤ 2 * κhi * dt ^ 2 := by positivity
  have hnew : (E * z) ^ 2 / 2 + Un
      ≤ (1 / 2 + 2 * κhi * dt ^ 2 + 2 * κhi / (kmin * dt) ^ 2) * (z ^ 2 + w ^ 2) := by
    have e3 : (1 / 2 + 2 * κhi * dt ^ 2 + 2 * κhi / (kmin * dt) ^ 2) * (z ^ 2 + w ^ 2)
        = z ^ 2 / 2 + κhi * (2 * (w ^ 2 / (kmin * dt) ^ 2) + 2 * (z ^ 2 * dt ^ 2))
          + (2 * κhi * dt ^ 2 * w ^ 2 + w ^ 2 / 2 + 2 * κhi / (kmin * dt) ^ 2 * z ^ 2) := by
      ring
    have h7 := mul_nonneg hcoef hz2
    have h8 := mul_nonneg hcoef2 hw2
    rw [e3]
    linarith
  have hold : (E * z) ^ 2 / 2 + Un + Emin * μ / 4 * (z ^ 2 + w ^ 2) ≤ (z + w) ^ 2 / 2 + Uo := by
    have e4 : (z + w) ^ 2 / 2 - (E * z) ^ 2 / 2
        - (r * E * z * w + K / 2 * dt ^ 2 * E ^ 2 * z ^ 2)
        = (1 - E ^ 2 * (1 + K * dt ^ 2)) / 2 * z ^ 2 + 2 * ((1 - r * E) / 2) * z * w
          + w ^ 2 / 2 := by
      ring
    linarith
  rw [div_mul_eq_mul_div, le_div_iff₀ (by positivity)]
  have h5 := mul_le_mul_of_nonneg_left hnew hδ.le
  have h6 := mul_le_mul_of_nonneg_left hold hC.le
  linarith

/-- One step of the damped spring `v' = E (v - k e dt)`, `e' = e + v' dt`
contracts the energy `v² / 2 + U e` by a factor `ρ < 1` that depends only on
the bounds of the gains, provided the potential `U` grows at most like
`r (k e) h + K h² / 2` along a step and `Emax (1 + r² + K dt²) < 2 r` at both
ends of the range of `r`. -/
theorem energy_step (U : ℝ → ℝ) (K κhi kmin Emin Emax r1 r2 μ dt : ℝ)
    (hdt : 0 < dt) (hK : 0 ≤ K) (hκ : 0 ≤ κhi) (hkmin : 0 < kmin) (hEmin : 0 < Emin)
    (hEmax : Emax ≤ 1) (hμ : 0 < μ)
    (hr1 : Emax * (1 + r1 ^ 2 + K * dt ^ 2) + μ ≤ 2 * r1)
    (hr2 : Emax * (1 + r2 ^ 2 + K * dt ^ 2) + μ ≤ 2 * r2)
    (hU3 : ∀ x, U x ≤ κhi * x ^ 2) :
    ∃ ρ : ℝ, 0 ≤ ρ ∧ ρ < 1 ∧
      ∀ e v k E r : ℝ, kmin ≤ k → Emin ≤ E → E ≤ Emax → r1 ≤ r → r ≤ r2 →
        (∀ h, U (e + h) - U e ≤ r * (k * e) * h + K / 2 * h ^ 2) →
        (E * (v - k * e * dt)) ^ 2 / 2 + U (e + E * (v - k * e * dt) * dt)
          ≤ ρ * (v ^ 2 / 2 + U e) := by
  have hδ : 0 < Emin * μ / 4 := by positivity
  have hC : 0 < 1 / 2 + 2 * κhi * dt ^ 2 + 2 * κhi / (kmin * dt) ^ 2 := by positivity
  refine ⟨(1 / 2 + 2 * κhi * dt ^ 2 + 2 * κhi / (kmin * dt) ^ 2)
      / ((1 / 2 + 2 * κhi * dt ^ 2 + 2 * κhi / (kmin * dt) ^ 2) + Emin * μ / 4),
    by positivity, by rw [div_lt_one (by positivity)]; linarith, ?_⟩
  intro e v k E r hk hE hE' hr hr' hU1
  have hE0 : 0 < E := lt_of_lt_of_le hEmin hE
  have hE1 : E ≤ 1 := hE'.trans hEmax
  obtain ⟨z, hz⟩ : ∃ z, z = v - k * e * dt := ⟨_, rfl⟩
  obtain ⟨w, hw⟩ : ∃ w, w = k * e * dt := ⟨_, rfl⟩
  have hv : v = z + w := by rw [hz, hw]; ring
  have h1 := hU1 (E * z * dt)
  have e1 : r * (k * e) * (E * z * dt) + K / 2 * (E * z * dt) ^ 2
      = r * E * z * w + K / 2 * dt ^ 2 * E ^ 2 * z ^ 2 := by rw [hw]; ring
  rw [e1] at h1
  have hm := margin_interp Emax (K * dt ^ 2) μ r1 r2 (hE0.le.trans hE') (by positivity)
    hr1 hr2 E r hE' hr hr'
  have hen := new_error_sq_le e z w k kmin E dt hdt hkmin hk hE0.le hE1 hw
  rw [← hz, hv]
  exact energy_step_core z w E r K dt (U (e + E * z * dt)) (U e) κhi kmin Emin μ
    (e + E * z * dt) hκ hkmin hdt hEmin hμ hK hE hE1 hm h1 (hU3 _) hen

end EnergyStep

section Gains

/-- The clamped ratio `min(d / (spacing * 2), 1)` lies in `[0, 1]` for `d ≥ 0`. -/
theorem ratio_mem (d : ℝ) (hd : 0 ≤ d) :
    0 ≤ min (d / (spacing * 2)) 1 ∧ min (d / (spacing * 2)) 1 ≤ 1 := by
  have hsp : (0 : ℝ) < spacing * 2 := by
    simp only [spacing]
    norm_num
  exact ⟨le_min (div_nonneg hd hsp.le) zero_le_one, min_le_right _ _⟩

/-- With `m = min(|e| / (spacing * 2), 1)` the function `e ↦ m e` is monotone and
its slope is at most `2`. -/
theorem clamped_mul_mono (x y : ℝ) (hxy : y ≤ x) :
    0 ≤ min (|x| / (spacing * 2)) 1 * x - min (|y| / (spacing * 2)) 1 * y ∧
    min (|x| / (spacing * 2)) 1 * x - min (|y| / (spacing * 2)) 1 * y ≤ 2 * (x - y) := by
  have hsp : (0 : ℝ) < spacing * 2 := by
    simp only [spacing]
    norm_num
  obtain ⟨hx0, hx1⟩ := ratio_mem |x| (abs_nonneg x)
  obtain ⟨hy0, hy1⟩ := ratio_mem |y| (abs_nonneg y)
  -- the case `0 ≤ y ≤ x`
  have pos : ∀ a b : ℝ, 0 ≤ b → b ≤ a →
      0 ≤ min (a / (spacing * 2)) 1 * a - min (b / (spacing * 2)) 1 * b ∧
      min (a / (spacing * 2)) 1 * a - min (b / (spacing * 2)) 1 * b ≤ 2 * (a - b) := by
    intro a b hb hba
    have ha : 0 ≤ a := hb.trans hba
    obtain ⟨ha0, ha1⟩ := ratio_mem a ha
    obtain ⟨hb0, hb1⟩ := ratio_mem b hb
    have hmono : min (b / (spacing * 2)) 1 ≤ min (a / (spacing * 2)) 1 :=
      min_le_min (div_le_div_of_nonneg_right hba hsp.le) le_rfl
    have hlip : b * (min (a / (spacing * 2)) 1 - min (b / (spacing * 2)) 1) ≤ a - b := by
      rcases le_total (b / (spacing * 2)) 1 with hb' | hb'
      · have hbL : b ≤ spacing * 2 := by
          rwa [div_le_one hsp] at hb'
        have h1 : min (a / (spacing * 2)) 1 ≤ a / (spacing * 2) := min_le_left _ _
        have h2 : min (b / (spacing * 2)) 1 = b / (spacing * 2) := min_eq_left hb'
        have h3 : min (a / (spacing * 2)) 1 - min (b / (spacing * 2)) 1
            ≤ (a - b) / (spacing * 2) := by
          rw [h2, sub_div]
          linarith
        have h4 : b * (min (a / (spacing * 2)) 1 - min (b / (spacing * 2)) 1)
            ≤ (spacing * 2) * ((a - b) / (spacing * 2)) := by
          apply mul_le_mul hbL h3 (by linarith) hsp.le
        rw [mul_div_cancel₀ _ hsp.ne'] at h4
        exact h4
      · have h2 : min (b / (spacing * 2)) 1 = 1 := min_eq_right hb'
        have h1 : min (a / (spacing * 2)) 1 = 1 :=
          min_eq_right (hb'.trans (div_le_div_of_nonneg_right hba hsp.le))
        rw [h1, h2]
        simp
        exact hba
    have e1 : min (a / (spacing * 2)) 1 * a - min (b / (spacing * 2)) 1 * b
        = (a - b) * min (a / (spacing * 2)) 1
          + b * (min (a / (spacing * 2)) 1 - min (b / (spacing * 2)) 1) := by ring
    rw [e1]
    have h5 : 0 ≤ (a - b) * min (a / (spacing * 2)) 1 :=
      mul_nonneg (sub_nonneg.mpr hba) ha0
    have h6 : (a - b) * min (a / (spacing * 2)) 1 ≤ (a - b) * 1 :=
      mul_le_mul_of_nonneg_left ha1 (sub_nonneg.mpr hba)
    have h7 : 0 ≤ b * (min (a / (spacing * 2)) 1 - min (b / (spacing * 2)) 1) :=
      mul_nonneg hb (sub_nonneg.mpr hmono)
    constructor <;> linarith
  rcases le_total 0 y with hy | hy
  · have hx : 0 ≤ x := hy.trans hxy
    rw [abs_of_nonneg hx, abs_of_nonneg hy]
    exact pos x y hy hxy
  · rcases le_total 0 x with hx | hx
    · have h1 : 0 ≤ min (|x| / (spacing * 2)) 1 * x := mul_nonneg hx0 hx
      have h2 : min (|x| / (spacing * 2)) 1 * x ≤ 1 * x := mul_le_mul_of_nonneg_right hx1 hx
      have h3 : min (|y| / (spacing * 2)) 1 * y ≤ 0 := mul_nonpos_of_nonneg_of_nonpos hy0 hy
      have h4 : 1 * y ≤ min (|y| / (spacing * 2)) 1 * y := mul_le_mul_of_nonpos_right hy1 hy
      constructor <;> linarith
    · rw [abs_of_nonpos hx, abs_of_nonpos hy]
      obtain ⟨p1, p2⟩ := pos (-y) (-x) (neg_nonneg.mpr hx) (neg_le_neg hxy)
      constructor <;> linarith

/-- `stiffnessOf` in closed form. -/
theorem stiffnessOf_eq (active : Bool) (d : ℝ) :
    stiffnessOf active d
      = if active then 85 - 60 * min (d / (spacing * 2)) 1 else 40 + 60 * min (d / (spacing * 2)) 1 := by
  cases active
  · simp only [stiffnessOf, progressOf, Bool.false_eq_true, if_false]
    ring
  · simp only [stiffnessOf, progressOf, if_true]
    ring

/-- `dampingOf` in closed form: the same for both values of `active`. -/
theorem dampingOf_eq (active : Bool) (d : ℝ) :
    dampingOf active d = 12 - 6 * min (d / (spacing * 2)) 1 := by
  cases active
  · simp only [dampingOf, progressOf, Bool.false_eq_true, if_false]
    ring
  · simp only [dampingOf, progressOf, if_true]
    ring

theorem dampingOf_mem (active : Bool) (d : ℝ) (hd : 0 ≤ d) :
    6 ≤ dampingOf active d ∧ dampingOf active d ≤ 12 := by
  obtain ⟨h0, h1⟩ := ratio_mem d hd
  rw [dampingOf_eq]
  constructor <;> linarith

theorem stiffnessOf_mem (active : Bool) (d : ℝ) (hd : 0 ≤ d) :
    (if active then (25 : ℝ) else 40) ≤ stiffnessOf active d ∧
    stiffnessOf active d ≤ (if active then (85 : ℝ) else 100) := by
  obtain ⟨h0, h1⟩ := ratio_mem d hd
  rw [stiffnessOf_eq]
  cases active
  · simp only [Bool.false_eq_true, if_false]
    constructor <;> linarith
  · simp only [if_true]
    constructor <;> linarith

theorem stiffnessOf_continuous (active : Bool) :
    Continuous (fun e : ℝ => stiffnessOf active |e|) := by
  have h : (fun e : ℝ => stiffnessOf active |e|)
      = fun e : ℝ => if active then 85 - 60 * min (|e| / (spacing * 2)) 1
          else 40 + 60 * min (|e| / (spacing * 2)) 1 := by
    funext e
    exact stiffnessOf_eq active |e|
  rw [h]
  cases active
  · simp only [Bool.false_eq_true, if_false]
    fun_prop
  · simp only [if_true]
    fun_prop

/-- The restoring force `F e = stiffnessOf active |e| * e` has slope at most
`85` when `active`, and at most `160` otherwise. -/
theorem force_slope (active : Bool) (x y : ℝ) (hxy : y ≤ x) :
    stiffnessOf active |x| * x - stiffnessOf active |y| * y
      ≤ (if active then (85 : ℝ) else 160) * (x - y) := by
  obtain ⟨h0, h1⟩ := clamped_mul_mono x y hxy
  rw [stiffnessOf_eq, stiffnessOf_eq]
  cases active
  · simp only [Bool.false_eq_true, if_false]
    linarith
  · simp only [if_true]
    linarith

end Gains

section Contraction

open Filter Topology

/-- From a polynomial lower bound `T ≤ exp (c dt)` to a bound on `exp (-(c dt))`. -/
theorem exp_margin (x T A r : ℝ) (hT : T ≤ Real.exp x) (hr : 0 < r) (h : A < 2 * r * T) :
    Real.exp (-x) * A < 2 * r := by
  have hpos : 0 < Real.exp x := Real.exp_pos x
  have h1 : A < 2 * r * Real.exp x := by
    have := mul_le_mul_of_nonneg_left hT (by positivity : (0 : ℝ) ≤ 2 * r)
    linarith
  rw [Real.exp_neg, inv_mul_lt_iff₀ hpos]
  linarith

/-- Two strict inequalities share a positive margin. -/
theorem margin_exists (a1 a2 b1 b2 : ℝ) (h1 : a1 < b1) (h2 : a2 < b2) :
    ∃ μ : ℝ, 0 < μ ∧ a1 + μ ≤ b1 ∧ a2 + μ ≤ b2 := by
  refine ⟨min (b1 - a1) (b2 - a2), lt_min (sub_pos.mpr h1) (sub_pos.mpr h2), ?_, ?_⟩
  · have := min_le_left (b1 - a1) (b2 - a2)
    linarith
  · have := min_le_right (b1 - a1) (b2 - a2)
    linarith

/-- Taylor lower bounds of `exp` at `6 dt`. -/
theorem exp_six_lower (dt : ℝ) (hdt : 0 ≤ dt) :
    1 + 6 * dt + 18 * dt ^ 2 ≤ Real.exp (6 * dt) ∧
    1 + 6 * dt + 18 * dt ^ 2 + 36 * dt ^ 3 ≤ Real.exp (6 * dt) ∧
    1 + 6 * dt + 18 * dt ^ 2 + 36 * dt ^ 3 + 54 * dt ^ 4 ≤ Real.exp (6 * dt) := by
  have hx : 0 ≤ 6 * dt := by positivity
  have h3 := Real.sum_le_exp_of_nonneg hx 3
  have h4 := Real.sum_le_exp_of_nonneg hx 4
  have h5 := Real.sum_le_exp_of_nonneg hx 5
  simp only [Finset.sum_range_succ, Finset.sum_range_zero, Nat.factorial] at h3 h4 h5
  norm_num at h3 h4 h5
  refine ⟨?_, ?_, ?_⟩
  · nlinarith
  · nlinarith
  · nlinarith

end Contraction

section SpringContraction

/-- The damping factor of a frame lies between `exp (-12 dt)` and `exp (-6 dt)`. -/
theorem damping_factor_mem (active : Bool) (e dt : ℝ) (hdt : 0 < dt) :
    Real.exp (-(12 * dt)) ≤ Real.exp (-dampingOf active |e| * dt) ∧
    Real.exp (-dampingOf active |e| * dt) ≤ Real.exp (-(6 * dt)) := by
  obtain ⟨h6, h12⟩ := dampingOf_mem active |e| (abs_nonneg e)
  have h1 := mul_le_mul_of_nonneg_right h6 hdt.le
  have h2 := mul_le_mul_of_nonneg_right h12 hdt.le
  constructor
  · apply Real.exp_le_exp.mpr
    linarith
  · apply Real.exp_le_exp.mpr
    linarith

/-- The energy of the vertical spring with the potential of the actual force:
it contracts when `exp (-(6 dt)) (2 + K dt²) < 2` for the slope bound `K` of the
force. -/
theorem contract_potential (active : Bool) (dt : ℝ) (hdt : 0 < dt)
    (hcond : Real.exp (-(6 * dt)) * (1 + 1 ^ 2 + (if active then (85 : ℝ) else 160) * dt ^ 2)
      < 2 * 1) :
    ∃ (U : ℝ → ℝ) (ρ κ : ℝ), 0 < κ ∧ 0 ≤ ρ ∧ ρ < 1 ∧ (∀ x, κ * x ^ 2 ≤ U x) ∧
      ∀ e v : ℝ,
        (Real.exp (-dampingOf active |e| * dt) * (v - stiffnessOf active |e| * e * dt)) ^ 2 / 2
          + U (e + Real.exp (-dampingOf active |e| * dt)
              * (v - stiffnessOf active |e| * e * dt) * dt)
          ≤ ρ * (v ^ 2 / 2 + U e) := by
  have hcont : Continuous (fun x : ℝ => stiffnessOf active |x| * x) :=
    (stiffnessOf_continuous active).mul continuous_id
  have hklo : ∀ x : ℝ, (if active then (25 : ℝ) else 40) ≤ stiffnessOf active |x| :=
    fun x => (stiffnessOf_mem active |x| (abs_nonneg x)).1
  have hkhi : ∀ x : ℝ, stiffnessOf active |x| ≤ (if active then (85 : ℝ) else 100) :=
    fun x => (stiffnessOf_mem active |x| (abs_nonneg x)).2
  have hlo0 : (0 : ℝ) < if active then (25 : ℝ) else 40 := by
    cases active <;> simp
  have hhi0 : (0 : ℝ) ≤ (if active then (85 : ℝ) else 100) / 2 := by
    cases active <;> norm_num
  have hK0 : (0 : ℝ) ≤ if active then (85 : ℝ) else 160 := by
    cases active <;> simp
  have hsec := potential_sector (fun x : ℝ => stiffnessOf active |x|)
    (stiffnessOf_continuous active) _ _ hklo hkhi
  obtain ⟨μ, hμ, hm, -⟩ := margin_exists _ _ _ _ hcond hcond
  have hEmin : 0 < Real.exp (-(12 * dt)) := Real.exp_pos _
  have hEmax : Real.exp (-(6 * dt)) ≤ 1 := by
    rw [Real.exp_le_one_iff]
    linarith
  obtain ⟨ρ, hρ0, hρ1, hstep⟩ := energy_step
    (fun e => ∫ x in (0 : ℝ)..e, stiffnessOf active |x| * x)
    (if active then (85 : ℝ) else 160) ((if active then (85 : ℝ) else 100) / 2)
    (if active then (25 : ℝ) else 40) (Real.exp (-(12 * dt))) (Real.exp (-(6 * dt))) 1 1 μ dt
    hdt hK0 hhi0 hlo0 hEmin hEmax hμ hm hm (fun x => (hsec x).2)
  refine ⟨fun e => ∫ x in (0 : ℝ)..e, stiffnessOf active |x| * x, ρ,
    (if active then (25 : ℝ) else 40) / 2, by positivity, hρ0, hρ1, fun x => (hsec x).1, ?_⟩
  intro e v
  obtain ⟨hE1, hE2⟩ := damping_factor_mem active e dt hdt
  refine hstep e v (stiffnessOf active |e|) (Real.exp (-dampingOf active |e| * dt)) 1
    (hklo e) hE1 hE2 le_rfl le_rfl ?_
  intro h
  have := potential_step (fun x : ℝ => stiffnessOf active |x| * x) hcont
    (if active then (85 : ℝ) else 160) (fun x y hxy => force_slope active x y hxy) e h
  simpa using this

/-- The energy of the vertical spring with the quadratic potential `40 e²`,
for the closed state: it contracts when the margin inequality holds at both
ends `r = 0.8` and `r = 2` of the range of `80 / stiffness`. -/
theorem contract_quadratic (dt : ℝ) (hdt : 0 < dt)
    (h1 : Real.exp (-(6 * dt)) * (1 + (4 / 5) ^ 2 + 80 * dt ^ 2) < 2 * (4 / 5))
    (h2 : Real.exp (-(6 * dt)) * (1 + 2 ^ 2 + 80 * dt ^ 2) < 2 * 2) :
    ∃ (U : ℝ → ℝ) (ρ κ : ℝ), 0 < κ ∧ 0 ≤ ρ ∧ ρ < 1 ∧ (∀ x, κ * x ^ 2 ≤ U x) ∧
      ∀ e v : ℝ,
        (Real.exp (-dampingOf false |e| * dt) * (v - stiffnessOf false |e| * e * dt)) ^ 2 / 2
          + U (e + Real.exp (-dampingOf false |e| * dt)
              * (v - stiffnessOf false |e| * e * dt) * dt)
          ≤ ρ * (v ^ 2 / 2 + U e) := by
  obtain ⟨μ, hμ, hm1, hm2⟩ := margin_exists _ _ _ _ h1 h2
  have hEmin : 0 < Real.exp (-(12 * dt)) := Real.exp_pos _
  have hEmax : Real.exp (-(6 * dt)) ≤ 1 := by
    rw [Real.exp_le_one_iff]
    linarith
  obtain ⟨ρ, hρ0, hρ1, hstep⟩ := energy_step (fun e : ℝ => 40 * e ^ 2) 80 40 40
    (Real.exp (-(12 * dt))) (Real.exp (-(6 * dt))) (4 / 5) 2 μ dt
    hdt (by norm_num) (by norm_num) (by norm_num) hEmin hEmax hμ hm1 hm2 (fun x => le_rfl)
  refine ⟨fun e : ℝ => 40 * e ^ 2, ρ, 40, by norm_num, hρ0, hρ1, fun x => le_rfl, ?_⟩
  intro e v
  obtain ⟨hE1, hE2⟩ := damping_factor_mem false e dt hdt
  obtain ⟨hk1, hk2⟩ := stiffnessOf_mem false |e| (abs_nonneg e)
  simp only [Bool.false_eq_true, if_false] at hk1 hk2
  have hk0 : 0 < stiffnessOf false |e| := by linarith
  refine hstep e v (stiffnessOf false |e|) (Real.exp (-dampingOf false |e| * dt))
    (80 / stiffnessOf false |e|) hk1 hE1 hE2 ?_ ?_ ?_
  · rw [le_div_iff₀ hk0]
    linarith
  · rw [div_le_iff₀ hk0]
    linarith
  · intro h
    have e1 : 80 / stiffnessOf false |e| * (stiffnessOf false |e| * e) = 80 * e := by
      field_simp
      ring
    rw [e1]
    apply le_of_eq
    ring

/-- Polynomial inequality behind the quadratic-potential regime. -/
theorem poly_regime_two (t : ℝ) (ht : 2 / 25 ≤ t) :
    1 + (4 / 5) ^ 2 + 80 * t ^ 2
      < 2 * (4 / 5) * (1 + 6 * t + 18 * t ^ 2 + 36 * t ^ 3 + 54 * t ^ 4) ∧
    1 + 2 ^ 2 + 80 * t ^ 2 < 2 * 2 * (1 + 6 * t + 18 * t ^ 2 + 36 * t ^ 3 + 54 * t ^ 4) := by
  obtain ⟨s, hs⟩ : ∃ s, s = t - 2 / 25 := ⟨_, rfl⟩
  have hs0 : 0 ≤ s := by linarith
  have ht' : t = s + 2 / 25 := by linarith
  subst ht'
  constructor
  · nlinarith [mul_nonneg hs0 (sq_nonneg (s - 9 / 50)), sq_nonneg (s ^ 2 - 7 / 100),
      mul_nonneg hs0 hs0, mul_nonneg (mul_nonneg hs0 hs0) hs0, sq_nonneg s]
  · nlinarith [mul_nonneg hs0 hs0, mul_nonneg (mul_nonneg hs0 hs0) hs0, sq_nonneg (s ^ 2),
      sq_nonneg s]

/-- For every positive time step the vertical spring has an energy
`v² / 2 + U e`, with `U e ≥ κ e²`, that contracts by a factor `ρ < 1` in every
started frame. -/
theorem contract_Y (active : Bool) (dt : ℝ) (hdt : 0 < dt) :
    ∃ (U : ℝ → ℝ) (ρ κ : ℝ), 0 < κ ∧ 0 ≤ ρ ∧ ρ < 1 ∧ (∀ x, κ * x ^ 2 ≤ U x) ∧
      ∀ e v : ℝ,
        (Real.exp (-dampingOf active |e| * dt) * (v - stiffnessOf active |e| * e * dt)) ^ 2 / 2
          + U (e + Real.exp (-dampingOf active |e| * dt)
              * (v - stiffnessOf active |e| * e * dt) * dt)
          ≤ ρ * (v ^ 2 / 2 + U e) := by
  obtain ⟨hT2, hT3, hT4⟩ := exp_six_lower dt hdt.le
  cases active
  · rcases le_total dt (2 / 25) with hsmall | hlarge
    · apply contract_potential false dt hdt
      apply exp_margin (6 * dt) _ _ 1 hT2 one_pos
      simp only [Bool.false_eq_true, if_false]
      nlinarith
    · obtain ⟨p1, p2⟩ := poly_regime_two dt hlarge
      exact contract_quadratic dt hdt
        (exp_margin (6 * dt) _ _ (4 / 5) hT4 (by norm_num) p1)
        (exp_margin (6 * dt) _ _ 2 hT4 (by norm_num) p2)
  · apply contract_potential true dt hdt
    apply exp_margin (6 * dt) _ _ 1 hT3 one_pos
    simp only [if_true]
    nlinarith [sq_nonneg (dt - 49 / 144), mul_pos hdt hdt]

/-- The radius spring (stiffness `60`, damping `10`): the energy `v² / 2 + 30 e²`
contracts by a factor `ρ < 1` for every positive time step. -/
theorem contract_R (dt : ℝ) (hdt : 0 < dt) :
    ∃ ρ : ℝ, 0 ≤ ρ ∧ ρ < 1 ∧
      ∀ e v : ℝ,
        (Real.exp (-10 * dt) * (v - 60 * e * dt)) ^ 2 / 2
          + 30 * (e + Real.exp (-10 * dt) * (v - 60 * e * dt) * dt) ^ 2
          ≤ ρ * (v ^ 2 / 2 + 30 * e ^ 2) := by
  have hx : 0 ≤ 10 * dt := by positivity
  have hT := Real.quadratic_le_exp_of_nonneg hx
  have hcond : Real.exp (-(10 * dt)) * (1 + 1 ^ 2 + 60 * dt ^ 2) < 2 * 1 := by
    apply exp_margin (10 * dt) _ _ 1 hT one_pos
    nlinarith [mul_pos hdt hdt]
  obtain ⟨μ, hμ, hm, -⟩ := margin_exists _ _ _ _ hcond hcond
  have hEmin : 0 < Real.exp (-(10 * dt)) := Real.exp_pos _
  have hEmax : Real.exp (-(10 * dt)) ≤ 1 := by
    rw [Real.exp_le_one_iff]
    linarith
  obtain ⟨ρ, hρ0, hρ1, hstep⟩ := energy_step (fun e : ℝ => 30 * e ^ 2) 60 30 60
    (Real.exp (-(10 * dt))) (Real.exp (-(10 * dt))) 1 1 μ dt
    hdt (by norm_num) (by norm_num) (by norm_num) hEmin hEmax hμ hm hm (fun x => le_rfl)
  refine ⟨ρ, hρ0, hρ1, ?_⟩
  intro e v
  have hE : Real.exp (-10 * dt) = Real.exp (-(10 * dt)) := by
    congr 1
    ring
  rw [hE]
  refine hstep e v 60 (Real.exp (-(10 * dt))) 1 le_rfl le_rfl le_rfl le_rfl le_rfl ?_
  intro h
  apply le_of_eq
  ring

end SpringContraction

section Linking

open Filter Topology

/-- One more call in the fixed-step scenario is one more `update`. -/
theorem runFrames_fixedStep_succ (B : Builtins ℝ) (s : State ℝ) (active : Bool) (t0 dt : ℝ)
    (n : ℕ) :
    runFrames B s (fixedStepFrames active t0 dt (n + 1))
      = update B (runFrames B s (fixedStepFrames active t0 dt n)) active (t0 + (n : ℝ) * dt) dt := by
  simp [runFrames, fixedStepFrames, List.range_succ, List.map_append, List.foldl_append, useFrame]

/-- At mount both velocities of every blob read as `0`. -/
theorem mounted_blob_vel (i : Fin 4) :
    ((mounted : State ℝ).blob i).vy = 0 ∧ ((mounted : State ℝ).blob i).vr = 0 := by
  constructor <;> fin_cases i <;> simp [State.blob, mounted, zeros]

/-- In the fixed-step scenario from the mounted state, call `n` acts on blob `i`
by `springStep` with elapsed time `n dt` when `active` (the first call is the
transition) and `t0 + n dt` otherwise (the start time stays `0`). -/
theorem fixedStep_blob (B : Builtins ℝ) (active : Bool) (t0 dt : ℝ) (i : Fin 4) (n : ℕ) :
    (runFrames B mounted (fixedStepFrames active t0 dt (n + 1))).blob i
      = springStep B active ((if active then 0 else t0) + (n : ℝ) * dt) dt i
          ((runFrames B mounted (fixedStepFrames active t0 dt n)).blob i) := by
  have hflags : ∀ m : ℕ,
      (runFrames B mounted (fixedStepFrames active t0 dt m)).anim.wasActive
        = (if m = 0 then false else active) ∧
      (runFrames B mounted (fixedStepFrames active t0 dt m)).anim.startTime
        = (if m = 0 then 0 else if active then t0 else 0) := by
    intro m
    induction m with
    | zero => simp [runFrames, fixedStepFrames, mounted]
    | succ m ih =>
      rw [runFrames_fixedStep_succ]
      obtain ⟨h1, h2⟩ := update_flags B (runFrames B mounted (fixedStepFrames active t0 dt m))
        active (t0 + (m : ℝ) * dt) dt
      rw [h1, h2, ih.1, ih.2]
      cases active <;> rcases Nat.eq_zero_or_pos m with hm | hm
      · subst hm
        simp
      · simp [hm.ne']
      · subst hm
        simp
      · simp [hm.ne']
  rw [runFrames_fixedStep_succ, update_blob, (hflags n).1, (hflags n).2]
  cases active <;> rcases Nat.eq_zero_or_pos n with hn | hn
  · subst hn
    simp
  · simp [hn.ne']
  · subst hn
    obtain ⟨hv1, hv2⟩ := mounted_blob_vel i
    have hb : (runFrames B mounted (fixedStepFrames true t0 dt 0)).blob i
        = (mounted : State ℝ).blob i := by
      simp [runFrames, fixedStepFrames]
    rw [hb]
    have hreset : ({ (mounted : State ℝ).blob i with vy := 0, vr := 0 } : BlobView ℝ)
        = (mounted : State ℝ).blob i := by
      cases hm : (mounted : State ℝ).blob i
      rw [hm] at hv1 hv2
      simp only at hv1 hv2
      simp [hv1, hv2]
    simp [hreset]
  · simp [hn.ne']

/-- A started frame, in terms of the position error `y - finalY` and the radius
error `r - finalR`. -/
theorem springStep_started (B : Builtins ℝ) (hexp : ∀ x, B.exp x = Real.exp x) (active : Bool)
    (el dt : ℝ) (i : Fin 4) (b : BlobView ℝ) (hel : childDelays i ≤ el) :
    (springStep B active el dt i b).vy
      = Real.exp (-dampingOf active |b.y - (if active then openPositions i else closedY)| * dt)
        * (b.vy - stiffnessOf active |b.y - (if active then openPositions i else closedY)|
            * (b.y - (if active then openPositions i else closedY)) * dt) ∧
    (springStep B active el dt i b).y - (if active then openPositions i else closedY)
      = (b.y - (if active then openPositions i else closedY))
        + (springStep B active el dt i b).vy * dt ∧
    (springStep B active el dt i b).vr
      = Real.exp (-10 * dt)
        * (b.vr - 60 * (b.r - (if active then openRadii i else closedRadii i)) * dt) ∧
    (springStep B active el dt i b).r - (if active then openRadii i else closedRadii i)
      = (b.r - (if active then openRadii i else closedRadii i))
        + (springStep B active el dt i b).vr * dt := by
  have habs : |(if active then openPositions i else closedY) - b.y|
      = |b.y - (if active then openPositions i else closedY)| := abs_sub_comm _ _
  simp only [springStep, hel, ge_iff_le, decide_True, if_true, hexp, habs]
  refine ⟨by ring, by ring, by ring, by ring⟩

/-- If an energy `v² / 2 + U e` with `U e ≥ κ e²` tends to `0`, so do `e` and `v`. -/
theorem tendsto_of_energy (U : ℝ → ℝ) (κ : ℝ) (hκ : 0 < κ) (hU : ∀ x, κ * x ^ 2 ≤ U x)
    (e v : ℕ → ℝ) (h : Tendsto (fun n => v n ^ 2 / 2 + U (e n)) atTop (𝓝 0)) :
    Tendsto e atTop (𝓝 0) ∧ Tendsto v atTop (𝓝 0) := by
  have hsq : ∀ f : ℕ → ℝ, Tendsto (fun n => f n ^ 2) atTop (𝓝 0) → Tendsto f atTop (𝓝 0) := by
    intro f hf
    have h1 : Tendsto (fun n => Real.sqrt (f n ^ 2)) atTop (𝓝 (Real.sqrt 0)) :=
      (Real.continuous_sqrt.tendsto 0).comp hf
    rw [Real.sqrt_zero] at h1
    have h2 : (fun n => Real.sqrt (f n ^ 2)) = fun n => |f n| := by
      funext n
      exact Real.sqrt_sq_eq_abs (f n)
    rw [h2] at h1
    exact (tendsto_zero_iff_abs_tendsto_zero f).mpr h1
  have hUn : ∀ n, 0 ≤ U (e n) := fun n => le_trans (by positivity) (hU (e n))
  constructor
  · apply hsq
    have hlim : Tendsto (fun n => (v n ^ 2 / 2 + U (e n)) / κ) atTop (𝓝 0) := by
      have := h.div_const κ
      simpa using this
    refine squeeze_zero (fun n => sq_nonneg _) (fun n => ?_) hlim
    rw [le_div_iff₀ hκ]
    have := hU (e n)
    have := sq_nonneg (v n)
    linarith
  · apply hsq
    have hlim : Tendsto (fun n => 2 * (v n ^ 2 / 2 + U (e n))) atTop (𝓝 0) := by
      have := h.const_mul 2
      simpa using this
    refine squeeze_zero (fun n => sq_nonneg _) (fun n => ?_) hlim
    have := hUn n
    linarith

/-- Every blob eventually starts: from some call on the elapsed time exceeds
its delay. -/
theorem eventually_started (τ dt : ℝ) (hdt : 0 < dt) (i : Fin 4) :
    ∃ N : ℕ, ∀ n : ℕ, N ≤ n → (childDelays i : ℝ) ≤ τ + (n : ℝ) * dt := by
  obtain ⟨N, hN⟩ := exists_nat_ge ((childDelays i - τ) / dt)
  refine ⟨N, fun n hn => ?_⟩
  have h1 : (childDelays i - τ) / dt ≤ (n : ℝ) := hN.trans (by exact_mod_cast hn)
  rw [div_le_iff₀ hdt] at h1
  linarith

/-- C7 (convergence): with `Math.exp` the real exponential, let `update` be called
repeatedly from the mounted state with a fixed `active` flag and a fixed
positive time step `dt`, the clock starting at any `t0` and advancing by `dt`
each call.  Then for every blob the height and both radii (state and uniform)
converge to the target of that state, `openPositions[i]`, `openRadii[i]` when
`active` and `closedY`, `closedRadii[i]` otherwise, and both velocities
converge to `0`. -/
theorem fixed_step_convergence (B : Builtins ℝ) (hexp : ∀ x, B.exp x = Real.exp x)
    (active : Bool) (t0 dt : ℝ) (hdt : 0 < dt) (i : Fin 4) :
    Tendsto (fun n => ((runFrames B mounted (fixedStepFrames active t0 dt n)).u.uBalls i).y)
      atTop (𝓝 (if active then openPositions i else closedY)) ∧
    Tendsto (fun n => (runFrames B mounted (fixedStepFrames active t0 dt n)).anim.radii i)
      atTop (𝓝 (if active then openRadii i else closedRadii i)) ∧
    Tendsto (fun n => (runFrames B mounted (fixedStepFrames active t0 dt n)).u.uRadii i)
      atTop (𝓝 (if active then openRadii i else closedRadii i)) ∧
    Tendsto (fun n =>
      (runFrames B mounted (fixedStepFrames active t0 dt n)).anim.velY.getD zeros i)
      atTop (𝓝 0) ∧
    Tendsto (fun n =>
      (runFrames B mounted (fixedStepFrames active t0 dt n)).anim.velR.getD zeros i)
      atTop (𝓝 0) := by
  obtain ⟨N, hN⟩ := eventually_started (if active then 0 else t0) dt hdt i
  -- the recurrence of the errors from call `N` on
  have hrec : ∀ n, N ≤ n →
      _ := fun n hn => springStep_started B hexp active _ dt i
        ((runFrames B mounted (fixedStepFrames active t0 dt n)).blob i) (hN n hn)
  simp only [← fixedStep_blob] at hrec
  -- vertical spring
  obtain ⟨U, ρ, κ, hκ, hρ0, hρ1, hU, hstepY⟩ := contract_Y active dt hdt
  have hVY : Tendsto (fun n =>
      ((runFrames B mounted (fixedStepFrames active t0 dt n)).blob i).vy ^ 2 / 2
        + U (((runFrames B mounted (fixedStepFrames active t0 dt n)).blob i).y
            - (if active then openPositions i else closedY))) atTop (𝓝 0) := by
    refine tendsto_zero_of_contract _ ρ hρ0 hρ1 N (fun n => ?_) (fun n hn => ?_)
    · have h1 := hU (((runFrames B mounted (fixedStepFrames active t0 dt n)).blob i).y
        - (if active then openPositions i else closedY))
      have h2 : 0 ≤ κ * (((runFrames B mounted (fixedStepFrames active t0 dt n)).blob i).y
        - (if active then openPositions i else closedY)) ^ 2 := by positivity
      have h3 := sq_nonneg ((runFrames B mounted (fixedStepFrames active t0 dt n)).blob i).vy
      linarith
    · obtain ⟨h1, h2, -, -⟩ := hrec n hn
      rw [h2, h1]
      exact hstepY _ _
  obtain ⟨heY, hvY⟩ := tendsto_of_energy U κ hκ hU _ _ hVY
  -- radius spring
  obtain ⟨ρR, hρR0, hρR1, hstepR⟩ := contract_R dt hdt
  have hVR : Tendsto (fun n =>
      ((runFrames B mounted (fixedStepFrames active t0 dt n)).blob i).vr ^ 2 / 2
        + 30 * (((runFrames B mounted (fixedStepFrames active t0 dt n)).blob i).r
            - (if active then openRadii i else closedRadii i)) ^ 2) atTop (𝓝 0) := by
    refine tendsto_zero_of_contract _ ρR hρR0 hρR1 N (fun n => by positivity) (fun n hn => ?_)
    obtain ⟨-, -, h3, h4⟩ := hrec n hn
    rw [h4, h3]
    exact hstepR _ _
  obtain ⟨heR, hvR⟩ := tendsto_of_energy (fun x => 30 * x ^ 2) 30 (by norm_num)
    (fun x => le_rfl) _ _ hVR
  have hy : Tendsto (fun n => ((runFrames B mounted (fixedStepFrames active t0 dt n)).blob i).y)
      atTop (𝓝 (if active then openPositions i else closedY)) := by
    have := heY.add_const (if active then openPositions i else closedY)
    simpa using this
  have hr : Tendsto (fun n => ((runFrames B mounted (fixedStepFrames active t0 dt n)).blob i).r)
      atTop (𝓝 (if active then openRadii i else closedRadii i)) := by
    have := heR.add_const (if active then openRadii i else closedRadii i)
    simpa using this
  have htarget : (0 : ℝ) ≤ if active then openRadii i else closedRadii i := by
    cases active <;> fin_cases i <;> norm_num [openRadii, closedRadii]
  refine ⟨hy, hr, ?_, hvY, hvR⟩
  have hmax : Tendsto (fun n =>
      max 0 ((runFrames B mounted (fixedStepFrames active t0 dt n)).blob i).r) atTop
      (𝓝 (max 0 (if active then openRadii i else closedRadii i))) :=
    (tendsto_const_nhds (x := (0 : ℝ))).max hr
  rw [max_eq_right htarget] at hmax
  refine hmax.congr' ?_
  filter_upwards [eventually_ge_atTop 1] with n hn
  obtain ⟨m, rfl⟩ : ∃ m, n = m + 1 := ⟨n - 1, by omega⟩
  rw [blob_ur, fixedStep_blob]
  rfl

end Linking

section ConvergenceWitness

open Filter Topology

/-- Witness for C7: opening from the mounted state at 60 frames per second with
the real exponential; the height of blob 1 converges to `openPositions[1]`. -/
theorem fixed_step_convergence_witness :
    (∀ x : ℝ, (⟨Real.exp, Real.sqrt, Real.sin, fun x y => x ^ y⟩ : Builtins ℝ).exp x
      = Real.exp x) ∧
    (0 : ℝ) < 1 / 60 ∧
    Tendsto (fun n => ((runFrames (⟨Real.exp, Real.sqrt, Real.sin, fun x y => x ^ y⟩ : Builtins ℝ)
        mounted (fixedStepFrames true 0 (1 / 60) n)).u.uBalls 1).y)
      atTop (𝓝 (if true then openPositions 1 else closedY)) :=
  ⟨fun _ => rfl, by norm_num,
    (fixed_step_convergence (⟨Real.exp, Real.sqrt, Real.sin, fun x y => x ^ y⟩ : Builtins ℝ)
      (fun _ => rfl) true 0 (1 / 60) (by norm_num) 1).1⟩

end ConvergenceWitness

end GooeyGlass
